import Mathlib

/-!
# Verification of the constellate budget/classification core

Shallow embedding of the budget-aware classification engine of the
`constellate` repository: token estimation and truncation
(`src/lib/tokens.ts`), message fitting (`src/lib/budget.ts`), the
resilient streaming executor (`src/lib/safe-stream.ts`), category
budgeting (`src/unnamed/part_005`), the canonicalization engine
(`applyQaFix`, `backfillCategoriesFromIndex`, `mergeExpandPlans` in
`src/lib/ai.ts`), and the pass-2 coverage repair plus
`makeStoreFromStreamlined` (`src/index.tsx`).

JavaScript strings are modelled as `List Char`; JS numbers appearing in
the relevant code paths are machine integers and are modelled as
`Nat`/`Int` (float multiplications by the constants 0.75 and 0.5 are
exact on these integer ranges and are modelled as exact rational
arithmetic; the constants 0.6 and 0.3 are modelled as the exact
rationals 3/5 and 3/10 — every theorem below is insensitive to the
sub-ulp difference, as noted at each use site).
-/

namespace Constellate

/-- JS strings are lists of characters. -/
abbrev Str := List Char

/-- Whitespace recognised by `String.prototype.trim` / `\s`
(the additional Unicode space characters never occur in any input we
reason about and are omitted). -/
def jsWs (c : Char) : Bool :=
  c = ' ' || c = '\t' || c = '\n' || c = '\r' ||
  c = Char.ofNat 11 || c = Char.ofNat 12

/-- `String.prototype.trim`: drop leading and trailing whitespace. -/
def jsTrim (s : Str) : Str :=
  ((s.dropWhile jsWs).reverse.dropWhile jsWs).reverse

/-- `text.slice(0, n)` for `n ≥ 0`. -/
def jsTake (n : Nat) (s : Str) : Str := s.take n

/-- `text.slice(-n)` for `n ≥ 1`: the last `n` characters (the whole
string when `n ≥ length`). -/
def lastN (n : Nat) (s : Str) : Str := s.drop (s.length - n)

/-- `estimateTokens` (src/lib/tokens.ts:7): `Math.ceil(length / 4)`. -/
def estimateTokens (s : Str) : Nat := (s.length + 3) / 4

/-- First index matched by the regex `/[.!?]\s/` (`-1` in JS becomes
`none` here). -/
def sentenceBreak : Str → Option Nat
  | c₁ :: c₂ :: rest =>
    if (c₁ = '.' || c₁ = '!' || c₁ = '?') && jsWs c₂ then some 0
    else (sentenceBreak (c₂ :: rest)).map (· + 1)
  | _ => none

/-- First index matched by `/\s/`. -/
def wsBreak (s : Str) : Option Nat := s.findIdx? jsWs

/-- The tail clean-up of `headTailSlice` (src/lib/tokens.ts:38-49): the
regex `/^[^\n]*$/` matches exactly when the string has no newline, in
which case the replacement callback picks a sentence or word boundary.
The float comparisons `i > len * 0.3` and `i > len * 0.5` are modelled
as the exact `10 * i > 3 * len` and `2 * i > len`; every theorem below
only uses that each branch returns a prefix of the input. -/
def cleanTail (tail : Str) : Str :=
  if tail.contains '\n' then tail
  else
    match sentenceBreak tail with
    | some i =>
      if 10 * i > 3 * tail.length then tail.take (i + 1)
      else
        match wsBreak tail with
        | some j => if 2 * j > tail.length then tail.take j else tail
        | none => tail
    | none =>
      match wsBreak tail with
      | some j => if 2 * j > tail.length then tail.take j else tail
      | none => tail

/-- The truncation marker inserted by `headTailSlice`. -/
def marker : Str := ("[...content truncated...]").data

/-- The `"\n\n"` separator around the marker. -/
def nl2 : Str := ('\n' :: '\n' :: [])

/-- `Math.max(32, maxTokens - 8)` of src/lib/tokens.ts:25 (the
`Nat`-truncated subtraction agrees with JS because both sides give 32
whenever `maxTokens < 40`). -/
def htsAvailable (b : Nat) : Nat := max 32 (b - 8)

/-- `Math.max(16, Math.floor(available * 0.75))` (src/lib/tokens.ts:26);
`x * 0.75` is exact in doubles, so the floor is exactly `3x/4`. -/
def htsHeadTok (b : Nat) : Nat := max 16 (3 * htsAvailable b / 4)

/-- `Math.max(8, availableTokens - headTokenCount)` (src/lib/tokens.ts:27). -/
def htsTailTok (b : Nat) : Nat := max 8 (htsAvailable b - htsHeadTok b)

/-- `headTailSlice` (src/lib/tokens.ts:14-52) with the default
`headRatio = 0.75` (the only ratio used by the repository). -/
def headTailSlice (text : Str) (maxTokens : Nat) : Str :=
  if text = [] then text
  else if estimateTokens text ≤ maxTokens then text
  else
    jsTrim (jsTake (4 * htsHeadTok maxTokens) text) ++ nl2 ++ marker ++ nl2 ++
      jsTrim (cleanTail (lastN (4 * htsTailTok maxTokens) text))

/-! Length bounds for the slicing primitives. -/

theorem jsTrim_length_le (s : Str) : (jsTrim s).length ≤ s.length := by
  unfold jsTrim
  calc ((s.dropWhile jsWs).reverse.dropWhile jsWs).reverse.length
      = ((s.dropWhile jsWs).reverse.dropWhile jsWs).length := List.length_reverse _
    _ ≤ (s.dropWhile jsWs).reverse.length := (List.dropWhile_sublist _).length_le
    _ = (s.dropWhile jsWs).length := List.length_reverse _
    _ ≤ s.length := (List.dropWhile_sublist _).length_le

theorem lastN_length_le (n : Nat) (s : Str) : (lastN n s).length ≤ n := by
  unfold lastN
  rw [List.length_drop]
  omega

theorem cleanTail_length_le (s : Str) : (cleanTail s).length ≤ s.length := by
  unfold cleanTail
  have htake : ∀ k : Nat, (s.take k).length ≤ s.length := by
    intro k
    simp [List.length_take]
  split
  · exact Nat.le_refl _
  · split
    · split
      · exact htake _
      · split
        · split
          · exact htake _
          · exact Nat.le_refl _
        · exact Nat.le_refl _
    · split
      · split
        · exact htake _
        · exact Nat.le_refl _
      · exact Nat.le_refl _

theorem headTailSlice_of_le {text : Str} {b : Nat}
    (h : estimateTokens text ≤ b) : headTailSlice text b = text := by
  unfold headTailSlice
  by_cases hn : text = []
  · rw [if_pos hn]
  · rw [if_neg hn, if_pos h]

theorem headTailSlice_of_over {text : Str} {b : Nat}
    (hne : text ≠ []) (hover : b < estimateTokens text) :
    headTailSlice text b =
      jsTrim (jsTake (4 * htsHeadTok b) text) ++ nl2 ++ marker ++ nl2 ++
        jsTrim (cleanTail (lastN (4 * htsTailTok b) text)) := by
  unfold headTailSlice
  rw [if_neg hne, if_neg (by omega)]

theorem htsHeadTok_eq {b : Nat} (hb : 40 ≤ b) :
    htsHeadTok b = 3 * (b - 8) / 4 := by
  unfold htsHeadTok htsAvailable
  omega

theorem htsTailTok_eq {b : Nat} (hb : 40 ≤ b) :
    htsTailTok b = (b - 8) - 3 * (b - 8) / 4 := by
  unfold htsTailTok htsHeadTok htsAvailable
  omega

theorem headTailSlice_length_le (text : Str) (b : Nat) (hb : 40 ≤ b)
    (hne : text ≠ []) (hover : b < estimateTokens text) :
    (headTailSlice text b).length ≤ 4 * b - 3 := by
  rw [headTailSlice_of_over hne hover, htsHeadTok_eq hb, htsTailTok_eq hb]
  simp only [List.length_append]
  have h1 : (jsTrim (jsTake (4 * (3 * (b - 8) / 4)) text)).length ≤
      4 * (3 * (b - 8) / 4) :=
    le_trans (jsTrim_length_le _) (List.length_take_le _ _)
  have h2 :
      (jsTrim (cleanTail (lastN (4 * ((b - 8) - 3 * (b - 8) / 4)) text))).length ≤
      4 * ((b - 8) - 3 * (b - 8) / 4) :=
    le_trans (jsTrim_length_le _)
      (le_trans (cleanTail_length_le _) (lastN_length_le _ _))
  have hm : marker.length = 25 := by decide
  have hn : nl2.length = 2 := by decide
  rw [hm, hn]
  omega

/-- The truncation branch of `headTailSlice` always embeds the marker. -/
theorem marker_infix_of_truncated (text : Str) (b : Nat)
    (hne : text ≠ []) (hover : b < estimateTokens text) :
    marker <:+: headTailSlice text b := by
  rw [headTailSlice_of_over hne hover]
  exact ⟨jsTrim (jsTake (4 * htsHeadTok b) text) ++ nl2,
    nl2 ++ jsTrim (cleanTail (lastN (4 * htsTailTok b) text)), by simp⟩

/-- C3, counterexample: at `t = "a"`, `b = 0` the sliced result is the
31-character string `"a\n\n[...content truncated...]\n\na"`, whose token
estimate 8 exceeds the original's estimate 1 (the claimed inequality
`estimateTokens (headTailSlice t b) ≤ estimateTokens t` fails). -/
theorem headTailSlice_not_shrinking_at_small_budget :
    ¬ (estimateTokens (headTailSlice ('a' :: []) 0) ≤
        estimateTokens ('a' :: [])) := by decide

/-- C3 (amended): for budgets `b ≥ 40` the head+tail slice never exceeds
the original token estimate, and for every budget the truncation marker
is contained in the result whenever `estimateTokens t > b`.  For budgets
below 40 the fixed floors (head ≥ 16 tokens, tail ≥ 8 tokens, marker
margin) can make the result longer than the original, as the
counterexample shows. -/
theorem headTailSlice_shrinks_and_marks (t : Str) (b : Nat) :
    (40 ≤ b → estimateTokens (headTailSlice t b) ≤ estimateTokens t)
    ∧ (b < estimateTokens t → marker <:+: headTailSlice t b) := by
  have hne_of : b < estimateTokens t → t ≠ [] := by
    intro hover h
    rw [h] at hover
    simp [estimateTokens] at hover
  constructor
  · intro hb
    by_cases hover : estimateTokens t ≤ b
    · rw [headTailSlice_of_le hover]
    · have hover' : b < estimateTokens t := by omega
      have hlen := headTailSlice_length_le t b hb (hne_of hover') hover'
      unfold estimateTokens at *
      omega
  · intro hover
    exact marker_infix_of_truncated t b (hne_of hover) hover

set_option maxRecDepth 4000 in
/-- Witness for C3's amended theorem at a 200-character text and budget
41. -/
theorem headTailSlice_shrinks_and_marks_witness :
    estimateTokens (headTailSlice (List.replicate 200 'a') 41) ≤
      estimateTokens (List.replicate 200 'a')
    ∧ marker <:+: headTailSlice (List.replicate 200 'a') 41 :=
  ⟨(headTailSlice_shrinks_and_marks (List.replicate 200 'a') 41).1 (by decide),
   (headTailSlice_shrinks_and_marks (List.replicate 200 'a') 41).2 (by decide)⟩

/-! ## Category budgeting (src/unnamed/part_005:114-137)

`Math.ceil(Math.sqrt(n))` and `Math.ceil(Math.pow(n, 0.6))` are
modelled as the exact real ceilings: the least `k` with `n ≤ k²`,
respectively the least `k` with `n³ ≤ k⁵` (0.6 = 3/5).  The module
constants `CONSTELLATE_MIN_CAT_SIZE` / `CONSTELLATE_MAX_CATEGORIES`
come from a config module not present under `src/` (src/lib/config.ts
is a stale copy without them); they are passed as explicit parameters,
with repository defaults 2 and 80 (src/lib/schemas.ts:72-81). -/

/-- `Math.ceil(Math.sqrt n)` as the least `k` with `n ≤ k²`. -/
def ceilSqrt (n : Nat) : Nat :=
  Nat.find (⟨n, Nat.le_self_pow (by norm_num) n⟩ : ∃ k, n ≤ k ^ 2)

/-- `Math.ceil(Math.pow n 0.6)` as the least `k` with `n³ ≤ k⁵`. -/
def ceilPow35 (n : Nat) : Nat :=
  Nat.find (show ∃ k, n ^ 3 ≤ k ^ 5 from ⟨n, by
    rcases Nat.eq_zero_or_pos n with h | h
    · simp [h]
    · exact Nat.pow_le_pow_right h (by omega)⟩)

structure CategoryBudget where
  min : Nat
  max : Nat
  maxNew : Nat
  splitThreshold : Nat
deriving Repr, DecidableEq

/-- The `min` field of the category budget:
`Math.max(2, Math.min(CONSTELLATE_MIN_CAT_SIZE, Math.floor(sqrt)))`
(src/unnamed/part_005:131; `sqrt` is already an integer so its floor is
itself). -/
def catBudgetMin (minCatSize n : Nat) : Nat :=
  max 2 (min minCatSize (ceilSqrt (max 1 n)))

/-- The `max` field:
`Math.min(configuredMax, Math.max(sqrt * 2, softMax))`
with `configuredMax = Math.max(8, Math.min(160, CONSTELLATE_MAX_CATEGORIES))`
(src/unnamed/part_005:130-132). -/
def catBudgetMax (maxCategories n : Nat) : Nat :=
  min (max 8 (min 160 maxCategories))
    (max (ceilSqrt (max 1 n) * 2) (ceilPow35 (max 1 n)))

/-- `computeCategoryBudget` (src/unnamed/part_005:124-137). -/
def computeCategoryBudget (minCatSize maxCategories : Nat)
    (repoCount : Nat) : CategoryBudget :=
  { min := catBudgetMin minCatSize repoCount
    max := catBudgetMax maxCategories repoCount
    maxNew := max 16 (min 120 (catBudgetMax maxCategories repoCount * 2))
    splitThreshold := max 6 (min 12 (ceilSqrt (max 1 repoCount) + 4)) }

theorem ceilSqrt_mono {m n : Nat} (h : m ≤ n) : ceilSqrt m ≤ ceilSqrt n := by
  unfold ceilSqrt
  exact Nat.find_mono fun k hk => le_trans h hk

theorem ceilPow35_mono {m n : Nat} (h : m ≤ n) : ceilPow35 m ≤ ceilPow35 n := by
  unfold ceilPow35
  exact Nat.find_mono fun k hk => le_trans (Nat.pow_le_pow_left h 3) hk

theorem one_le_ceilSqrt {n : Nat} (h : 1 ≤ n) : 1 ≤ ceilSqrt n := by
  by_contra hlt
  have h0 : ceilSqrt n = 0 := by omega
  have := Nat.find_spec (show ∃ k, n ≤ k ^ 2 from
    ⟨n, Nat.le_self_pow (by norm_num) n⟩)
  unfold ceilSqrt at h0
  rw [h0] at this
  simp at this
  omega

/-- C7: with a configured minimum category size of at most 8 (the
repository default is 2), the budget satisfies `min ≤ max` for every
record count `N ≥ 1`, and both `min` and `max` are monotonically
non-decreasing in `N`, for every configured maximum. -/
theorem computeCategoryBudget_min_le_max_and_mono
    (minCatSize maxCategories : Nat) (hK : minCatSize ≤ 8)
    (m n : Nat) (hm : 1 ≤ m) (hmn : m ≤ n) :
    (computeCategoryBudget minCatSize maxCategories n).min ≤
      (computeCategoryBudget minCatSize maxCategories n).max
    ∧ (computeCategoryBudget minCatSize maxCategories m).min ≤
      (computeCategoryBudget minCatSize maxCategories n).min
    ∧ (computeCategoryBudget minCatSize maxCategories m).max ≤
      (computeCategoryBudget minCatSize maxCategories n).max := by
  have hmax1 : max 1 m ≤ max 1 n := by omega
  have hs := ceilSqrt_mono hmax1
  have hp := ceilPow35_mono hmax1
  have hs1 : 1 ≤ ceilSqrt (max 1 n) := one_le_ceilSqrt (by omega)
  have hs1m : 1 ≤ ceilSqrt (max 1 m) := one_le_ceilSqrt (by omega)
  refine ⟨?_, ?_, ?_⟩ <;>
    simp only [computeCategoryBudget, catBudgetMin, catBudgetMax] <;>
    omega

/-- Witness for C7 at the repository's default configuration
(`CONSTELLATE_MIN_CAT_SIZE = 2`, `CONSTELLATE_MAX_CATEGORIES = 80`) and
record counts 3 ≤ 5. -/
theorem computeCategoryBudget_min_le_max_and_mono_witness :
    (computeCategoryBudget 2 80 5).min ≤ (computeCategoryBudget 2 80 5).max
    ∧ (computeCategoryBudget 2 80 3).min ≤ (computeCategoryBudget 2 80 5).min
    ∧ (computeCategoryBudget 2 80 3).max ≤ (computeCategoryBudget 2 80 5).max :=
  computeCategoryBudget_min_le_max_and_mono 2 80 (by decide) 3 5 (by decide)
    (by decide)

/-! ## Message fitting (src/lib/budget.ts:46-107)

`ModelMessage` content is `string | Array<part>` (the `ai` package
type); the parts of an array content are only ever inspected through
`length`, so they are modelled as `Unit`s.  The roles are the four
`ModelMessage` roles; the priority function maps `user ↦ 0`,
`system ↦ 1`, everything else `↦ 2` (src/lib/budget.ts:69). -/

inductive Role where
  | user
  | system
  | assistant
  | tool
deriving Repr, DecidableEq

def prio : Role → Nat
  | .user => 0
  | .system => 1
  | _ => 2

inductive Content where
  | str (s : Str)
  | arr (parts : List Unit)
deriving Repr, DecidableEq

structure Msg where
  role : Role
  content : Content
deriving Repr, DecidableEq

/-- A message after the cloning pass of `fitMessagesWithinBudget`
(src/lib/budget.ts:73-81): content is always a string. -/
structure CMsg where
  role : Role
  content : Str
deriving Repr, DecidableEq

def toMsg (m : CMsg) : Msg := ⟨m.role, .str m.content⟩

/-- Token estimate per message (src/lib/budget.ts:51-60): strings via
`estimateTokens`, arrays as `length * 10`, nothing else occurs in a
well-typed message list. -/
def contentTokens : Content → Nat
  | .str s => estimateTokens s
  | .arr ps => ps.length * 10

/-- The clone step (src/lib/budget.ts:73-81): array content becomes the
placeholder `'[ARRAY_CONTENT]'`. -/
def cloneContent : Content → Str
  | .str s => s
  | .arr _ => ("[ARRAY_CONTENT]").data

/-- The sort comparator of src/lib/budget.ts:68-71 as a `≤`-style
relation for a stable merge sort: `a` before `b` iff
`prio a < prio b`, or equal priority and `a.tokens ≥ b.tokens`. -/
def fitLe (a b : Nat × Role × Nat) : Bool :=
  decide (prio a.2.1 < prio b.2.1) ||
    (decide (prio a.2.1 = prio b.2.1) && decide (b.2.2 ≤ a.2.2))

/-- `Math.max(512, Math.floor(available * 0.6))`
(src/lib/budget.ts:91-92), with `available = maxInput - (total - cur)`;
`Int` division by 5 rounds toward `-∞`, matching `Math.floor`. -/
def targetOf (maxT total : Int) (cur : Nat) : Nat :=
  (max 512 (3 * (maxT - (total - (cur : Int))) / 5)).toNat

structure FitSt where
  cloned : List CMsg
  counts : List Nat
  total : Int
  trimmed : Bool
deriving Repr, DecidableEq

/-- The trimming loop of src/lib/budget.ts:84-104: walk the priority
order; stop once within budget; skip indexes out of range
(`!cloned[i]`); shrink the message via `headTailSlice` and keep the
running `total` and `counts` in sync when the content changed. -/
def fitLoop (maxT : Int) : List Nat → FitSt → FitSt
  | [], st => st
  | i :: rest, st =>
    if st.total ≤ maxT then st
    else
      match st.cloned.get? i with
      | none => st
      | some m =>
        let cur := (st.counts.get? i).getD 0
        let shortened := headTailSlice m.content (targetOf maxT st.total cur)
        if shortened = m.content then fitLoop maxT rest st
        else
          fitLoop maxT rest
            { cloned := st.cloned.set i ⟨m.role, shortened⟩
              counts := st.counts.set i (estimateTokens shortened)
              total := st.total - (cur : Int) + estimateTokens shortened
              trimmed := true }

def fitCounts (messages : List Msg) : List Nat :=
  messages.map fun m => contentTokens m.content

/-- `total = Σ counts + JSON_OVERHEAD` with `JSON_OVERHEAD = 300`
(src/lib/budget.ts:12,62). -/
def fitTotal (messages : List Msg) : Int := ((fitCounts messages).sum : Int) + 300

/-- The index ordering of src/lib/budget.ts:66-71 (user first, then
system, then the rest; ties by token count descending; JS `sort` is
stable, as is `mergeSort`). -/
def fitOrder (messages : List Msg) : List Nat :=
  ((((messages.zip (fitCounts messages)).enum).map
    fun p => (p.1, p.2.1.role, p.2.2)).mergeSort fitLe).map (·.1)

def fitClone (messages : List Msg) : List CMsg :=
  messages.map fun m => ⟨m.role, cloneContent m.content⟩

def fitRun (messages : List Msg) (maxT : Int) : FitSt :=
  fitLoop maxT (fitOrder messages)
    ⟨fitClone messages, fitCounts messages, fitTotal messages, false⟩

/-- `fitMessagesWithinBudget` (src/lib/budget.ts:46-107). -/
def fitMessagesWithinBudget (messages : List Msg) (maxT : Int) :
    List Msg × Bool :=
  if fitTotal messages ≤ maxT then (messages, false)
  else ((fitRun messages maxT).cloned.map toMsg, (fitRun messages maxT).trimmed)

/-! ## Slug normalization and the category store

`slugify(s, {lower: true, strict: true, trim: true})` (npm `slugify` as
used throughout src/lib/ai.ts): replacement dashes become spaces via
the char map, strict mode keeps only alphanumerics and whitespace,
trim drops outer whitespace, whitespace runs collapse to a single
dash, and the result is lowercased.  ASCII inputs only (the char-map
transliteration of accented characters never fires on the inputs we
reason about). -/

/-- Collapse every whitespace run to a single `'-'`. -/
def wsRunsToDash (s : Str) : Str :=
  s.foldr
    (fun c acc =>
      if jsWs c then (if acc.head? = some '-' then acc else '-' :: acc)
      else c :: acc)
    []

def slugify (s : Str) : Str :=
  (wsRunsToDash (jsTrim
    ((s.map fun c => if c = '-' then ' ' else c).filter
      fun c => c.isAlphanum || jsWs c))).map Char.toLower

/-- Lexicographic string order standing in for `localeCompare` (every
theorem below is insensitive to which total order sorts titles). -/
def strLe : Str → Str → Bool
  | [], _ => true
  | _ :: _, [] => false
  | c :: cs, d :: ds => if c = d then strLe cs ds else decide (c < d)

structure Quality where
  last_commit_days : Option Int
  stars : Option Nat
  archived : Option Bool
deriving Repr, DecidableEq

/-- `RepoEntry` (src/lib/schemas.ts:41-53). -/
structure RepoEntry where
  id : Str
  reason : Str
  tags : List Str
  confidence : Option Rat
  quality : Option Quality
deriving Repr, DecidableEq

/-- `Category` (src/lib/schemas.ts:54-60). -/
structure Category where
  slug : Str
  title : Str
  description : Str
  criteria : Str
  repos : List RepoEntry
deriving Repr, DecidableEq

/-- The fields of `ConstellateStore` (src/lib/schemas.ts:63-98) touched
by the canonicalization engine; `index` and `aliases` are JS objects,
modelled as insertion-ordered association lists with unique keys. -/
structure Store where
  categories : List Category
  index : List (Str × Str)
  aliases : List (Str × Str)
deriving Repr, DecidableEq

/-- `CategoryDraft` (src/lib/schemas.ts:108-115); optional/absent
strings are `[]` (the JS falsy empty string). -/
structure CatDraft where
  slug : Str
  title : Str
  description : Str
  criteria : Str
deriving Repr, DecidableEq

def alookup {β : Type} (m : List (Str × β)) (k : Str) : Option β :=
  (m.find? fun kv => kv.1 == k).map (·.2)

/-- JS `Map.set` / object assignment: overwrite in place when the key
exists, append otherwise. -/
def aupsert {β : Type} (m : List (Str × β)) (k : Str) (v : β) :
    List (Str × β) :=
  if (m.find? fun kv => kv.1 == k).isSome then
    m.map fun kv => if kv.1 == k then (k, v) else kv
  else m ++ [(k, v)]

structure Reassign where
  id : Str
  toCategory : Str
deriving Repr, DecidableEq

/-- `QaFix` (src/lib/schemas.ts:143-156). -/
structure QaFix where
  categories : List CatDraft
  aliases : List (Str × Str)
  reassign : List Reassign
  delete : List Str
  notes : List Str
deriving Repr, DecidableEq

/-- Step 1 of `applyQaFix` (src/lib/ai.ts:491-503): the alias map over
slugified keys, skipping entries blank after trimming. -/
def qaAliasTo (fix : QaFix) : List (Str × Str) :=
  fix.aliases.foldl
    (fun m kv =>
      if jsTrim kv.1 ≠ [] ∧ jsTrim kv.2 ≠ [] then
        aupsert m (slugify kv.1) (slugify kv.2)
      else m)
    []

/-- Step 2 (src/lib/ai.ts:506-522): canonical category map from
`fix.categories`, keyed by normalized slug. -/
def qaCanon0 (fix : QaFix) : List (Str × Category) :=
  fix.categories.foldl
    (fun m c =>
      if c.slug ≠ [] ∨ c.title ≠ [] then
        let s := slugify (if c.slug ≠ [] then c.slug else c.title)
        aupsert m s ⟨s, c.title, c.description, c.criteria, []⟩
      else m)
    []

/-- Step 3's reassign map (src/lib/ai.ts:525-538): raw ids to slugified
target categories, skipping blank entries. -/
def qaReassign (fix : QaFix) : List (Str × Str) :=
  fix.reassign.foldl
    (fun m x =>
      if jsTrim x.id ≠ [] ∧ jsTrim x.toCategory ≠ [] then
        aupsert m x.id (slugify x.toCategory)
      else m)
    []

/-- The deletion set (src/lib/ai.ts:540-544). -/
def qaKill (fix : QaFix) : List Str :=
  (fix.delete.filter fun s => jsTrim s ≠ []).map slugify

/-- Append a repo entry under `slug`, synthesizing the minimal
placeholder category when absent (src/lib/ai.ts:566-585). -/
def qaPush (canon : List (Str × Category)) (slug : Str) (r : RepoEntry) :
    List (Str × Category) :=
  match alookup canon slug with
  | some cat => aupsert canon slug { cat with repos := cat.repos ++ [r] }
  | none => canon ++ [(slug, ⟨slug, slug, [], [], [r]⟩)]

/-- Moving one repo entry (src/lib/ai.ts:566-585): the per-record
reassign override wins over the category-level target; the entry is
appended under that slug and the index updated. -/
def qaRepoStep (fix : QaFix) (target : Str)
    (st : List (Str × Category) × List (Str × Str)) (r : RepoEntry) :
    List (Str × Category) × List (Str × Str) :=
  let catSlug := (alookup (qaReassign fix) r.id).elim target id
  (qaPush st.1 catSlug r, aupsert st.2 r.id catSlug)

/-- One iteration of the category loop (src/lib/ai.ts:546-586), acting
on the pair (canonical map, index). -/
def qaProcessCat (fix : QaFix) (st : List (Str × Category) × List (Str × Str))
    (c : Category) : List (Str × Category) × List (Str × Str) :=
  let orig := c.slug
  if orig ∈ qaKill fix then st
  else
    let target := (alookup (qaReassign fix) orig).elim
      ((alookup (qaAliasTo fix) orig).getD orig) id
    let canon₁ :=
      match alookup st.1 target with
      | some _ => st.1
      | none => st.1 ++ [(target, ⟨target, c.title, c.description, c.criteria, []⟩)]
    c.repos.foldl (qaRepoStep fix target) (canon₁, st.2)

def starsOf (r : RepoEntry) : Nat := (r.quality.bind (·.stars)).getD 0

/-- Comparator `(b.quality?.stars ?? 0) - (a.quality?.stars ?? 0)`
(src/lib/ai.ts:595): stars descending, stable. -/
def starsLe (a b : RepoEntry) : Bool := decide (starsOf b ≤ starsOf a)

def titleLe (a b : Category) : Bool := strLe a.title b.title

/-- `applyQaFix` (src/lib/ai.ts:489-597). -/
def applyQaFix (store : Store) (fix : QaFix) : Store :=
  let st := store.categories.foldl (qaProcessCat fix) (qaCanon0 fix, store.index)
  { categories :=
      (((st.1.map (·.2)).filter fun c => ¬ c.repos.isEmpty).map
        fun c => { c with repos := c.repos.mergeSort starsLe }).mergeSort titleLe
    index := st.2
    aliases := store.aliases }

/-! ### C4: records of a deleted category are dropped wholesale -/

theorem mem_aupsert {β : Type} {m : List (Str × β)} {k : Str} {v : β}
    {x : Str × β} (h : x ∈ aupsert m k v) : x = (k, v) ∨ x ∈ m := by
  unfold aupsert at h
  split at h
  · rcases List.mem_map.mp h with ⟨kv, hkv, hx⟩
    by_cases hk : kv.1 == k
    · rw [if_pos hk] at hx
      exact Or.inl hx.symm
    · rw [if_neg hk] at hx
      exact Or.inr (hx ▸ hkv)
  · rcases List.mem_append.mp h with h | h
    · exact Or.inr h
    · exact Or.inl (List.mem_singleton.mp h)

theorem qaPush_good {canon : List (Str × Category)} {slug : Str}
    {r : RepoEntry} {i : Str}
    (hg : ∀ kc ∈ canon, ∀ e ∈ kc.2.repos, e.id ≠ i) (hr : r.id ≠ i) :
    ∀ kc ∈ qaPush canon slug r, ∀ e ∈ kc.2.repos, e.id ≠ i := by
  intro kc hkc e he
  unfold qaPush at hkc
  rcases hcat : alookup canon slug with _ | cat
  · rw [hcat] at hkc
    rcases List.mem_append.mp hkc with h | h
    · exact hg kc h e he
    · rw [List.mem_singleton.mp h] at he
      rcases List.mem_singleton.mp he with rfl
      exact hr
  · rw [hcat] at hkc
    rcases mem_aupsert hkc with rfl | h
    · rcases List.mem_append.mp he with h' | h'
      · have hmem : (slug, cat) ∈ canon ∨ True := Or.inr trivial
        -- recover the map membership of `cat` from the lookup
        unfold alookup at hcat
        rcases hfind : canon.find? (fun kv => kv.1 == slug) with _ | kv
        · rw [hfind] at hcat
          simp at hcat
        · rw [hfind] at hcat
          have hkv : kv ∈ canon := List.mem_of_find?_eq_some hfind
          have : kv.2 = cat := by
            simpa using hcat
          rw [← this] at h'
          exact hg kv hkv e h'
      · rcases List.mem_singleton.mp h' with rfl
        exact hr
    · exact hg kc h e he

theorem qaRepoStep_fold_good {fix : QaFix} {target : Str} {i : Str}
    (repos : List RepoEntry)
    (st : List (Str × Category) × List (Str × Str))
    (hg : ∀ kc ∈ st.1, ∀ e ∈ kc.2.repos, e.id ≠ i)
    (hrepos : ∀ r ∈ repos, r.id ≠ i) :
    ∀ kc ∈ (repos.foldl (qaRepoStep fix target) st).1, ∀ e ∈ kc.2.repos,
      e.id ≠ i := by
  induction repos generalizing st with
  | nil => exact hg
  | cons r rest ih =>
    simp only [List.foldl_cons]
    refine ih _ ?_ (fun x hx => hrepos x (List.mem_cons_of_mem r hx))
    exact qaPush_good hg (hrepos r (List.mem_cons_self r rest))

theorem qaProcessCat_good {fix : QaFix} {i : Str} {c : Category}
    (st : List (Str × Category) × List (Str × Str))
    (hg : ∀ kc ∈ st.1, ∀ e ∈ kc.2.repos, e.id ≠ i)
    (hc : (∃ r ∈ c.repos, r.id = i) → c.slug ∈ qaKill fix) :
    ∀ kc ∈ (qaProcessCat fix st c).1, ∀ e ∈ kc.2.repos, e.id ≠ i := by
  unfold qaProcessCat
  by_cases hkill : c.slug ∈ qaKill fix
  · rw [if_pos hkill]
    exact hg
  · rw [if_neg hkill]
    have hrepos : ∀ r ∈ c.repos, r.id ≠ i := by
      intro r hr hid
      exact hkill (hc ⟨r, hr, hid⟩)
    refine qaRepoStep_fold_good c.repos _ ?_ hrepos
    rcases hl : alookup st.1 _ with _ | cat
    · intro kc hkc e he
      rcases List.mem_append.mp hkc with h | h
      · exact hg kc h e he
      · rw [List.mem_singleton.mp h] at he
        simp at he
    · exact hg

theorem qaCanon0_empty (fix : QaFix) :
    ∀ kc ∈ qaCanon0 fix, kc.2.repos = [] := by
  unfold qaCanon0
  generalize hstart : ([] : List (Str × Category)) = start
  have hstart' : ∀ kc ∈ start, kc.2.repos = [] := by
    rw [← hstart]
    intro kc h
    simp at h
  clear hstart
  induction fix.categories generalizing start with
  | nil => exact hstart'
  | cons c rest ih =>
    simp only [List.foldl_cons]
    apply ih
    intro kc hkc
    split at hkc
    · rcases mem_aupsert hkc with rfl | h
      · rfl
      · exact hstart' kc h
    · exact hstart' kc hkc

/-- C4: if every category of the store that contains an entry for `i`
has its (original) slug in the deletion set, then after `applyQaFix` no
category of the store contains an entry for `i` — deleted categories
are skipped wholesale and their records are not preserved (not even
ones with an explicit reassignment; the claim only asserts the absence
for records without one, which this implies). -/
theorem applyQaFix_deleted_category_drops_records
    (store : Store) (fix : QaFix) (i : Str)
    (h : ∀ c ∈ store.categories, (∃ r ∈ c.repos, r.id = i) → c.slug ∈ qaKill fix) :
    ∀ c' ∈ (applyQaFix store fix).categories, ∀ r ∈ c'.repos, r.id ≠ i := by
  unfold applyQaFix
  intro c' hc' r hr
  simp only at hc' hr
  have hfold : ∀ (cats : List Category)
      (st : List (Str × Category) × List (Str × Str)),
      (∀ c ∈ cats, (∃ e ∈ c.repos, e.id = i) → c.slug ∈ qaKill fix) →
      (∀ kc ∈ st.1, ∀ e ∈ kc.2.repos, e.id ≠ i) →
      ∀ kc ∈ (cats.foldl (qaProcessCat fix) st).1, ∀ e ∈ kc.2.repos,
        e.id ≠ i := by
    intro cats
    induction cats with
    | nil => exact fun st _ hg => hg
    | cons c rest ih =>
      intro st hcats hg
      simp only [List.foldl_cons]
      exact ih _ (fun x hx => hcats x (List.mem_cons_of_mem c hx))
        (qaProcessCat_good st hg (hcats c (List.mem_cons_self c rest)))
  have hfold := hfold store.categories (qaCanon0 fix, store.index) h
    (by
      intro kc hkc e he
      rw [qaCanon0_empty fix kc hkc] at he
      simp at he)
  rcases List.mem_mergeSort.mp hc' with hc'
  rcases List.mem_map.mp hc' with ⟨c₀, hc₀, rfl⟩
  rcases List.mem_filter.mp hc₀ with ⟨hc₀m, -⟩
  rcases List.mem_map.mp hc₀m with ⟨kc, hkc, rfl⟩
  simp only at hr
  have hr' : r ∈ kc.2.repos := List.mem_mergeSort.mp hr
  exact hfold kc hkc r hr'

/-- Witness for C4: the spec's scenario — category `"misc"` holding
records `a` and `b` is deleted, `a` has an explicit reassignment, `b`
has none; afterwards neither record (in particular `b`) appears in any
category of the store. -/
theorem applyQaFix_deleted_category_drops_records_witness :
    ((applyQaFix
        ⟨[⟨('m' :: 'i' :: 's' :: 'c' :: []), ('M' :: []), [], [],
          [⟨('a' :: []), [], [], none, none⟩, ⟨('b' :: []), [], [], none, none⟩]⟩],
         [], []⟩
        ⟨[], [], [⟨('a' :: []), ('t' :: 'o' :: 'o' :: 'l' :: 's' :: [])⟩],
         [('m' :: 'i' :: 's' :: 'c' :: [])], []⟩).categories.all
      fun c => c.repos.all fun r => !(r.id == ('b' :: []))) = true := by
  have hth := applyQaFix_deleted_category_drops_records
    ⟨[⟨('m' :: 'i' :: 's' :: 'c' :: []), ('M' :: []), [], [],
      [⟨('a' :: []), [], [], none, none⟩, ⟨('b' :: []), [], [], none, none⟩]⟩],
     [], []⟩
    ⟨[], [], [⟨('a' :: []), ('t' :: 'o' :: 'o' :: 'l' :: 's' :: [])⟩],
     [('m' :: 'i' :: 's' :: 'c' :: [])], []⟩
    ('b' :: []) (by decide)
  rw [List.all_eq_true]
  intro c hc
  rw [List.all_eq_true]
  intro r hr
  have := hth c hc r hr
  simpa using this

/-! ### Backfill (src/lib/ai.ts:632-695)

`Date.now()` is passed in as `now`; repo features carry the fields the
backfill reads (`id`, `stars`, `archived`, `pushed_at` as epoch
milliseconds, `none` for absent). -/

structure RepoFeature where
  id : Str
  stars : Nat
  archived : Bool
  pushed_at : Option Int
deriving Repr, DecidableEq

/-- Update every binding of key `k` in place (JS mutates the object
held in the map, keeping its position; keys are unique in all uses). -/
def aupdate {β : Type} (m : List (Str × β)) (k : Str) (f : β → β) :
    List (Str × β) :=
  m.map fun kv => if kv.1 == k then (kv.1, f kv.2) else kv

def isWordChar (c : Char) : Bool := c.isAlphanum || c = '_'

/-- The title-casing of src/lib/ai.ts:642-644: dashes become spaces and
every word character at a word boundary (regex `\b\w`) is upper-cased. -/
def capWords : Bool → Str → Str
  | _, [] => []
  | atB, c :: rest =>
    (if atB && isWordChar c then c.toUpper else c) ::
      capWords (!isWordChar c) rest

def titleCase (s : Str) : Str :=
  capWords true (s.map fun c => if c = '-' then ' ' else c)

/-- Phase 1 (src/lib/ai.ts:640-654): ensure a category object exists for
every indexed slug. -/
def backfillPhase1 (index : List (Str × Str)) (m : List (Str × Category)) :
    List (Str × Category) :=
  index.foldl
    (fun m kv =>
      match alookup m kv.2 with
      | some _ => m
      | none => m ++ [(kv.2, ⟨kv.2, titleCase kv.2, [], [], []⟩)])
    m

/-- Phase 2 (src/lib/ai.ts:657): clear every category's repos. -/
def clearRepos (m : List (Str × Category)) : List (Str × Category) :=
  m.map fun kv => (kv.1, { kv.2 with repos := [] })

/-- The entry pushed for an indexed id (src/lib/ai.ts:664-681). -/
def backfillEntry (repoById : List (Str × RepoFeature)) (now : Int)
    (id : Str) : RepoEntry :=
  { id := id, reason := [], tags := [], confidence := some (3 / 4 : Rat)
    quality := (alookup repoById id).map fun src =>
      { last_commit_days := src.pushed_at.map fun t => (now - t) / 86400000
        stars := some src.stars
        archived := some src.archived } }

/-- Phase 3 (src/lib/ai.ts:660-683): rebuild the repos strictly from the
index. -/
def backfillPhase3 (repoById : List (Str × RepoFeature)) (now : Int)
    (m : List (Str × Category)) (index : List (Str × Str)) :
    List (Str × Category) :=
  index.foldl
    (fun m kv =>
      match alookup m kv.2 with
      | some _ =>
        aupdate m kv.2 fun cat =>
          { cat with repos := cat.repos ++ [backfillEntry repoById now kv.1] }
      | none => m)
    m

/-- `backfillCategoriesFromIndex` (src/lib/ai.ts:632-695). -/
def backfillCategoriesFromIndex (store : Store) (allRepos : List RepoFeature)
    (now : Int) : Store :=
  let catBySlug := store.categories.foldl (fun m c => aupsert m c.slug c) []
  let repoById := allRepos.foldl (fun m r => aupsert m r.id r) []
  let m3 := backfillPhase3 repoById now
    (clearRepos (backfillPhase1 store.index catBySlug)) store.index
  { categories :=
      (((m3.map (·.2)).filter fun c => ¬ c.repos.isEmpty).map
        fun c => { c with repos := c.repos.mergeSort starsLe }).mergeSort titleLe
    index := store.index
    aliases := store.aliases }
/-! ### C2: index/category consistency after backfill -/

theorem keys_aupdate {β : Type} (m : List (Str × β)) (k : Str) (f : β → β) :
    (aupdate m k f).map (·.1) = m.map (·.1) := by
  unfold aupdate
  rw [List.map_map]
  apply List.map_congr_left
  intro kv _
  simp only [Function.comp_apply]
  by_cases h : kv.1 == k
  · rw [if_pos h]
  · rw [if_neg h]

theorem mem_aupdate {β : Type} {m : List (Str × β)} {k : Str} {f : β → β}
    {x : Str × β} (h : x ∈ aupdate m k f) :
    ∃ kv ∈ m, x = if kv.1 == k then (kv.1, f kv.2) else kv := by
  rcases List.mem_map.mp h with ⟨kv, hkv, hx⟩
  exact ⟨kv, hkv, hx.symm⟩

theorem keys_aupsert {β : Type} (m : List (Str × β)) (k : Str) (v : β) :
    (aupsert m k v).map (·.1) = m.map (·.1) ∨
      ((aupsert m k v).map (·.1) = m.map (·.1) ++ [k] ∧ k ∉ m.map (·.1)) := by
  unfold aupsert
  split
  · left
    rw [List.map_map]
    apply List.map_congr_left
    intro kv hkv
    simp only [Function.comp_apply]
    by_cases h : kv.1 == k
    · rw [if_pos h]
      simpa using (beq_iff_eq.mp h).symm
    · rw [if_neg h]
  · right
    rename_i hnone
    have hfn : m.find? (fun kv => kv.1 == k) = none := by
      cases hfind : m.find? (fun kv => kv.1 == k) with
      | none => rfl
      | some x => rw [hfind] at hnone; simp at hnone
    rw [List.find?_eq_none] at hfn
    constructor
    · simp
    · intro hk
      rcases List.mem_map.mp hk with ⟨kv, hkv, hkey⟩
      exact absurd (beq_iff_eq.mpr hkey) (hfn kv hkv)

theorem alookup_isSome {β : Type} {m : List (Str × β)} {k : Str}
    (h : k ∈ m.map (·.1)) : (alookup m k).isSome := by
  rcases List.mem_map.mp h with ⟨kv, hkv, hkey⟩
  unfold alookup
  rcases hfind : m.find? (fun kv => kv.1 == k) with _ | x
  · rw [List.find?_eq_none] at hfind
    exact absurd (beq_iff_eq.mpr hkey) (hfind kv hkv)
  · rw [hfind]
    rfl

/-- Keys of the `new Map(...)` builds are nodup and (for `catBySlug`)
each value's slug equals its key. -/
theorem catBySlug_inv (cats : List Category) :
    ((cats.foldl (fun m c => aupsert m c.slug c) []).map (·.1)).Nodup ∧
      ∀ kv ∈ cats.foldl (fun m c => aupsert m c.slug c) [],
        kv.2.slug = kv.1 := by
  suffices h : ∀ (m : List (Str × Category)),
      (m.map (·.1)).Nodup → (∀ kv ∈ m, kv.2.slug = kv.1) →
      ((cats.foldl (fun m c => aupsert m c.slug c) m).map (·.1)).Nodup ∧
      ∀ kv ∈ cats.foldl (fun m c => aupsert m c.slug c) m,
        kv.2.slug = kv.1 by
    refine h [] ?_ ?_
    · simp
    · intro kv hkv
      simp at hkv
  induction cats with
  | nil => exact fun m h1 h2 => ⟨h1, h2⟩
  | cons c rest ih =>
    intro m h1 h2
    simp only [List.foldl_cons]
    apply ih
    · rcases keys_aupsert m c.slug c with h | ⟨h, hk⟩
      · rw [h]; exact h1
      · rw [h]
        refine List.Nodup.append h1 (List.nodup_singleton _) ?_
        intro a ha hb
        rcases List.mem_singleton.mp hb with rfl
        exact hk ha
    · intro kv hkv
      unfold aupsert at hkv
      split at hkv
      · rcases List.mem_map.mp hkv with ⟨kv', hkv', hx⟩
        by_cases hb : kv'.1 == c.slug
        · rw [if_pos hb] at hx
          rw [← hx]
        · rw [if_neg hb] at hx
          exact hx ▸ h2 kv' hkv'
      · rcases List.mem_append.mp hkv with h | h
        · exact h2 kv h
        · rw [List.mem_singleton.mp h]

theorem mem_of_alookup_isSome {β : Type} {m : List (Str × β)} {k : Str}
    (h : (alookup m k).isSome) : k ∈ m.map (·.1) := by
  unfold alookup at h
  rcases hfind : m.find? (fun kv => kv.1 == k) with _ | x
  · rw [hfind] at h
    simp at h
  · have hx := List.find?_some hfind
    have hmem := List.mem_of_find?_eq_some hfind
    exact List.mem_map.mpr ⟨x, hmem, beq_iff_eq.mp hx⟩

theorem not_mem_of_alookup_eq_none {β : Type} {m : List (Str × β)} {k : Str}
    (h : alookup m k = none) : k ∉ m.map (·.1) := by
  intro hk
  have := alookup_isSome hk
  rw [h] at this
  simp at this

/-- Phase-1 invariants: nodup keys, slug = key, key monotonicity, and
coverage of every indexed slug. -/
theorem backfillPhase1_inv (index : List (Str × Str)) :
    ∀ (m : List (Str × Category)),
      ((m.map (·.1)).Nodup) → (∀ kv ∈ m, kv.2.slug = kv.1) →
      (((backfillPhase1 index m).map (·.1)).Nodup
      ∧ (∀ kv ∈ backfillPhase1 index m, kv.2.slug = kv.1)
      ∧ (∀ k, k ∈ m.map (·.1) → k ∈ (backfillPhase1 index m).map (·.1))
      ∧ ∀ p ∈ index, p.2 ∈ (backfillPhase1 index m).map (·.1)) := by
  induction index with
  | nil =>
    intro m h1 h2
    refine ⟨h1, h2, fun k hk => hk, ?_⟩
    intro p hp
    simp at hp
  | cons kv rest ih =>
    intro m h1 h2
    unfold backfillPhase1
    simp only [List.foldl_cons]
    rcases hl : alookup m kv.2 with _ | cat
    · have h1' : ((m ++ [(kv.2, (⟨kv.2, titleCase kv.2, [], [], []⟩ : Category))]).map
          (·.1)).Nodup := by
        rw [List.map_append]
        refine List.Nodup.append h1 (List.nodup_singleton _) ?_
        intro a ha hb
        rcases List.mem_singleton.mp hb with rfl
        exact not_mem_of_alookup_eq_none hl ha
      have h2' : ∀ x ∈ m ++ [(kv.2, (⟨kv.2, titleCase kv.2, [], [], []⟩ : Category))],
          x.2.slug = x.1 := by
        intro x hx
        rcases List.mem_append.mp hx with h | h
        · exact h2 x h
        · rw [List.mem_singleton.mp h]
      rcases ih _ h1' h2' with ⟨ha, hb, hc, hd⟩
      refine ⟨ha, hb, ?_, ?_⟩
      · intro k hk
        exact hc k (by rw [List.map_append]; exact List.mem_append_left _ hk)
      · intro p hp
        rcases List.mem_cons.mp hp with rfl | hp
        · exact hc p.2 (by
            rw [List.map_append]
            exact List.mem_append_right _ (List.mem_singleton.mpr rfl))
        · exact hd p hp
    · rcases ih m h1 h2 with ⟨ha, hb, hc, hd⟩
      refine ⟨ha, hb, hc, ?_⟩
      intro p hp
      rcases List.mem_cons.mp hp with rfl | hp
      · exact hc p.2 (mem_of_alookup_isSome (by rw [hl]; rfl))
      · exact hd p hp

theorem clearRepos_keys (m : List (Str × Category)) :
    (clearRepos m).map (·.1) = m.map (·.1) := by
  unfold clearRepos
  rw [List.map_map]
  rfl

theorem clearRepos_inv (m : List (Str × Category))
    (h2 : ∀ kv ∈ m, kv.2.slug = kv.1) :
    (∀ kv ∈ clearRepos m, kv.2.slug = kv.1) ∧
      ∀ kv ∈ clearRepos m, kv.2.repos = [] := by
  constructor <;>
  · intro kv hkv
    rcases List.mem_map.mp hkv with ⟨kv', hkv', rfl⟩
    first
      | exact h2 kv' hkv'
      | rfl

/-- The phase-3 master induction: after rebuilding from the (remaining)
index pairs, a map entry contains an entry for `i` exactly when its key
is `cat`. -/
theorem backfillPhase3_contains (repoById : List (Str × RepoFeature))
    (now : Int) (i cat : Str) :
    ∀ (rest : List (Str × Str)) (m : List (Str × Category)) (seen : Prop),
      ((rest.map (·.1)).Nodup) →
      (∀ kv ∈ m, kv.2.slug = kv.1) →
      (∀ kv ∈ m, ((∃ r ∈ kv.2.repos, r.id = i) ↔ (seen ∧ kv.1 = cat))) →
      (¬ seen → (i, cat) ∈ rest) →
      (∀ p ∈ rest, p.1 = i → (p.2 = cat ∧ ¬ seen)) →
      (cat ∈ m.map (·.1)) →
      ((∀ kv ∈ backfillPhase3 repoById now m rest, kv.2.slug = kv.1)
      ∧ (backfillPhase3 repoById now m rest).map (·.1) = m.map (·.1)
      ∧ ∀ kv ∈ backfillPhase3 repoById now m rest,
          ((∃ r ∈ kv.2.repos, r.id = i) ↔ kv.1 = cat)) := by
  intro rest
  induction rest with
  | nil =>
    intro m seen hnd hslug hcont hwill hrid hcov
    have hseen : seen := by
      by_contra hs
      exact absurd (hwill hs) (List.not_mem_nil _)
    refine ⟨hslug, rfl, ?_⟩
    intro kv hkv
    rw [hcont kv hkv]
    exact ⟨fun h => h.2, fun h => ⟨hseen, h⟩⟩
  | cons p rest' ih =>
    intro m seen hnd hslug hcont hwill hrid hcov
    unfold backfillPhase3
    simp only [List.foldl_cons]
    have hstep :
        ∀ (m' : List (Str × Category)) (seen' : Prop),
        ((rest'.map (·.1)).Nodup) →
        (∀ kv ∈ m', kv.2.slug = kv.1) →
        (∀ kv ∈ m', ((∃ r ∈ kv.2.repos, r.id = i) ↔ (seen' ∧ kv.1 = cat))) →
        (¬ seen' → (i, cat) ∈ rest') →
        (∀ q ∈ rest', q.1 = i → (q.2 = cat ∧ ¬ seen')) →
        (cat ∈ m'.map (·.1)) →
        ((∀ kv ∈ backfillPhase3 repoById now m' rest', kv.2.slug = kv.1)
        ∧ (backfillPhase3 repoById now m' rest').map (·.1) = m'.map (·.1)
        ∧ ∀ kv ∈ backfillPhase3 repoById now m' rest',
            ((∃ r ∈ kv.2.repos, r.id = i) ↔ kv.1 = cat)) := by
      intro m' seen' a b c d e f
      exact ih m' seen' a b c d e f
    have hndtail : (rest'.map (·.1)).Nodup := (List.nodup_cons.mp hnd).2
    rcases hl : alookup m p.2 with _ | oldcat
    · -- category absent: impossible for the pair carrying `i` (coverage)
      by_cases hpi : p.1 = i
      · rcases hrid p (List.mem_cons_self p rest') hpi with ⟨hpc, hns⟩
        rw [hpc] at hl
        exact absurd (alookup_isSome hcov) (by rw [hl]; simp)
      · have hres := hstep m seen hndtail hslug hcont
          (fun hs => by
            rcases List.mem_cons.mp (hwill hs) with h | h
            · exact absurd (congrArg Prod.fst h).symm hpi
            · exact h)
          (fun q hq => hrid q (List.mem_cons_of_mem p hq)) hcov
        exact hres
    · -- category present: append the rebuilt entry in place
      set entry := backfillEntry repoById now p.1 with hentry
      set m₂ := aupdate m p.2 (fun c => { c with repos := c.repos ++ [entry] })
        with hm₂
      have hkeys₂ : m₂.map (·.1) = m.map (·.1) := keys_aupdate _ _ _
      have hslug₂ : ∀ kv ∈ m₂, kv.2.slug = kv.1 := by
        intro kv hkv
        rcases mem_aupdate hkv with ⟨kv', hkv', hx⟩
        by_cases hb : kv'.1 == p.2
        · rw [if_pos hb] at hx
          rw [hx]
          exact hslug kv' hkv'
        · rw [if_neg hb] at hx
          exact hx ▸ hslug kv' hkv'
      have hcov₂ : cat ∈ m₂.map (·.1) := by rw [hkeys₂]; exact hcov
      by_cases hpi : p.1 = i
      · -- the indexed pair for `i` itself: afterwards it is seen
        rcases hrid p (List.mem_cons_self p rest') hpi with ⟨hpc, hns⟩
        have hcont₂ : ∀ kv ∈ m₂,
            ((∃ r ∈ kv.2.repos, r.id = i) ↔ (True ∧ kv.1 = cat)) := by
          intro kv hkv
          rcases mem_aupdate hkv with ⟨kv', hkv', hx⟩
          by_cases hb : kv'.1 == p.2
          · rw [if_pos hb] at hx
            subst hx
            simp only [true_and]
            constructor
            · intro _
              rw [beq_iff_eq.mp hb, hpc]
            · intro _
              refine ⟨entry, List.mem_append_right _ (List.mem_singleton.mpr rfl), ?_⟩
              rw [hentry, hpi]
              rfl
          · rw [if_neg hb] at hx
            rw [hx, hcont kv' hkv']
            constructor
            · intro h
              exact absurd h.1 hns
            · intro h
              exact absurd (beq_iff_eq.mpr (h.2.trans hpc.symm)) hb
        have hrid₂ : ∀ q ∈ rest', q.1 = i → (q.2 = cat ∧ ¬ True) := by
          intro q hq hqi
          have : i ∈ rest'.map (·.1) := List.mem_map.mpr ⟨q, hq, hqi⟩
          rw [← hpi] at this
          exact absurd this (List.nodup_cons.mp (by rw [List.map_cons] at hnd; exact hnd)).1
        have hres := hstep m₂ True hndtail hslug₂ hcont₂
          (fun hs => absurd trivial hs) hrid₂ hcov₂
        rcases hres with ⟨ha, hb', hc⟩
        exact ⟨ha, hb'.trans hkeys₂, hc⟩
      · -- a pair for a different id: the appended entry is invisible to `i`
        have hcont₂ : ∀ kv ∈ m₂,
            ((∃ r ∈ kv.2.repos, r.id = i) ↔ (seen ∧ kv.1 = cat)) := by
          intro kv hkv
          rcases mem_aupdate hkv with ⟨kv', hkv', hx⟩
          by_cases hb : kv'.1 == p.2
          · rw [if_pos hb] at hx
            subst hx
            simp only
            rw [← hcont kv' hkv']
            constructor
            · intro ⟨r, hr, hri⟩
              rcases List.mem_append.mp hr with h | h
              · exact ⟨r, h, hri⟩
              · rcases List.mem_singleton.mp h with rfl
                exact absurd hri (by rw [hentry]; exact hpi)
            · intro ⟨r, hr, hri⟩
              exact ⟨r, List.mem_append_left _ hr, hri⟩
          · rw [if_neg hb] at hx
            rw [hx]
            exact hcont kv' hkv'
        have hres := hstep m₂ seen hndtail hslug₂ hcont₂
          (fun hs => by
            rcases List.mem_cons.mp (hwill hs) with h | h
            · exact absurd (congrArg Prod.fst h).symm hpi
            · exact h)
          (fun q hq => hrid q (List.mem_cons_of_mem p hq)) hcov₂
        rcases hres with ⟨ha, hb', hc⟩
        exact ⟨ha, hb'.trans hkeys₂, hc⟩

theorem countP_eq_one_of_nodup_mem {l : List Str} {a : Str}
    (hnd : l.Nodup) (ha : a ∈ l) :
    (l.countP fun k => decide (k = a)) = 1 := by
  induction l with
  | nil => exact absurd ha (List.not_mem_nil a)
  | cons x xs ih =>
    rw [List.countP_cons]
    rcases List.mem_cons.mp ha with rfl | ha'
    · have hnx : a ∉ xs := (List.nodup_cons.mp hnd).1
      have hz : (xs.countP fun k => decide (k = a)) = 0 := by
        rw [List.countP_eq_zero]
        intro b hb
        simp only [decide_eq_true_eq]
        intro hba
        rw [hba] at hb
        exact hnx hb
      simp [hz]
    · have hxa : ¬ (x = a) := fun h => (List.nodup_cons.mp hnd).1 (h ▸ ha')
      rw [ih (List.nodup_cons.mp hnd).2 ha']
      simp [hxa]

/-- C2: after backfill, every id in `store.index` is contained in exactly
one category of the store, and that category's slug is the id's indexed
category.  The only hypothesis is that the index has unique ids (it is a
JS object keyed by id). -/
theorem backfill_exactly_one_category
    (store : Store) (allRepos : List RepoFeature) (now : Int)
    (hnodup : (store.index.map (·.1)).Nodup)
    (i cat : Str) (hmem : (i, cat) ∈ store.index) :
    ((backfillCategoriesFromIndex store allRepos now).categories.countP
      fun c => decide (∃ r ∈ c.repos, r.id = i)) = 1
    ∧ ∀ c ∈ (backfillCategoriesFromIndex store allRepos now).categories,
        (∃ r ∈ c.repos, r.id = i) → c.slug = cat := by
  obtain ⟨hnd0, hslug0⟩ := catBySlug_inv store.categories
  obtain ⟨hnd1, hslug1, hmono1, hcov1⟩ :=
    backfillPhase1_inv store.index _ hnd0 hslug0
  obtain ⟨hslug2, hempty2⟩ := clearRepos_inv _ hslug1
  have hkeys2 := clearRepos_keys (backfillPhase1 store.index
    (store.categories.foldl (fun m c => aupsert m c.slug c) []))
  obtain ⟨hslug3, hkeys3, hcont3⟩ :=
    backfillPhase3_contains (allRepos.foldl (fun m r => aupsert m r.id r) [])
      now i cat store.index _ False hnodup hslug2
      (by
        intro kv hkv
        rw [hempty2 kv hkv]
        simp)
      (fun _ => hmem)
      (by
        intro p hp hpi
        refine ⟨?_, fun h => h⟩
        have := List.inj_on_of_nodup_map hnodup hp hmem (by rw [hpi])
        rw [this])
      (by rw [hkeys2]; exact hcov1 (i, cat) hmem)
  set M := backfillPhase3 (allRepos.foldl (fun m r => aupsert m r.id r) [])
    now (clearRepos (backfillPhase1 store.index
      (store.categories.foldl (fun m c => aupsert m c.slug c) [])))
    store.index with hM
  have hnd3 : (M.map (·.1)).Nodup := by
    rw [hkeys3, hkeys2]
    exact hnd1
  have hcatmem : cat ∈ M.map (·.1) := by
    rw [hkeys3, hkeys2]
    exact hcov1 (i, cat) hmem
  have hcats : (backfillCategoriesFromIndex store allRepos now).categories =
      (((M.map (·.2)).filter fun c => ¬ c.repos.isEmpty).map
        fun c => { c with repos := c.repos.mergeSort starsLe }).mergeSort
        titleLe := rfl
  constructor
  · rw [hcats]
    rw [(List.mergeSort_perm _ titleLe).countP_eq]
    rw [List.countP_map]
    rw [List.countP_congr (q := fun c => decide (∃ r ∈ c.repos, r.id = i))
      (by
        intro c hc
        simp only [Function.comp_apply, decide_eq_true_eq]
        constructor
        · intro ⟨r, hr, hri⟩
          exact ⟨r, List.mem_mergeSort.mp hr, hri⟩
        · intro ⟨r, hr, hri⟩
          exact ⟨r, List.mem_mergeSort.mpr hr, hri⟩)]
    rw [List.countP_filter]
    rw [List.countP_congr (q := fun c => decide (∃ r ∈ c.repos, r.id = i))
      (by
        intro c hc
        simp only [Bool.and_eq_true, decide_eq_true_eq]
        constructor
        · intro h
          exact h.1
        · intro h
          refine ⟨h, ?_⟩
          rcases h with ⟨r, hr, -⟩
          have hne : ¬ c.repos.isEmpty = true := by
            intro hemp
            rw [List.isEmpty_iff] at hemp
            rw [hemp] at hr
            exact absurd hr (List.not_mem_nil r)
          exact hne)]
    rw [List.countP_map]
    rw [List.countP_congr (q := fun kv => decide (kv.1 = cat))
      (by
        intro kv hkv
        simp only [Function.comp_apply, decide_eq_true_eq]
        exact hcont3 kv hkv)]
    have : (M.countP fun kv => decide (kv.1 = cat)) =
        ((M.map (·.1)).countP fun k => decide (k = cat)) := by
      rw [List.countP_map]
      rfl
    rw [this]
    exact countP_eq_one_of_nodup_mem hnd3 hcatmem
  · rw [hcats]
    intro c hc hin
    have hc' := List.mem_mergeSort.mp hc
    rcases List.mem_map.mp hc' with ⟨c₀, hc₀, rfl⟩
    rcases List.mem_filter.mp hc₀ with ⟨hc₀m, -⟩
    rcases List.mem_map.mp hc₀m with ⟨kv, hkv, rfl⟩
    have hin' : ∃ r ∈ kv.2.repos, r.id = i := by
      rcases hin with ⟨r, hr, hri⟩
      exact ⟨r, List.mem_mergeSort.mp hr, hri⟩
    have hkey := (hcont3 kv hkv).mp hin'
    have hsl := hslug3 kv hkv
    show kv.2.slug = cat
    exact hsl.trans hkey

/-- Witness for C2 at a concrete store: two indexed ids, no categories
yet (both get synthesized), id `"r1"` mapped to `"tools"`. -/
theorem backfill_exactly_one_category_witness :
    (((backfillCategoriesFromIndex
        ⟨[], [(('r' :: '1' :: []), ('t' :: 'o' :: 'o' :: 'l' :: 's' :: [])),
              (('r' :: '2' :: []), ('a' :: 'p' :: 'p' :: 's' :: []))], []⟩
        [] 0).categories.countP
      fun c => decide (∃ r ∈ c.repos, r.id = ('r' :: '1' :: []))) = 1)
    ∧ ((backfillCategoriesFromIndex
        ⟨[], [(('r' :: '1' :: []), ('t' :: 'o' :: 'o' :: 'l' :: 's' :: [])),
              (('r' :: '2' :: []), ('a' :: 'p' :: 'p' :: 's' :: []))], []⟩
        [] 0).categories.all
      fun c => !(c.repos.any fun r => r.id == ('r' :: '1' :: [])) ||
        (c.slug == ('t' :: 'o' :: 'o' :: 'l' :: 's' :: []))) = true := by
  have hth := backfill_exactly_one_category
    ⟨[], [(('r' :: '1' :: []), ('t' :: 'o' :: 'o' :: 'l' :: 's' :: [])),
          (('r' :: '2' :: []), ('a' :: 'p' :: 'p' :: 's' :: []))], []⟩
    [] 0 (by decide) ('r' :: '1' :: []) ('t' :: 'o' :: 'o' :: 'l' :: 's' :: [])
    (by decide)
  refine ⟨hth.1, ?_⟩
  rw [List.all_eq_true]
  intro c hc
  rw [Bool.or_eq_true]
  by_cases hin : ∃ r ∈ c.repos, r.id = ('r' :: '1' :: [])
  · right
    exact beq_iff_eq.mpr (hth.2 c hc hin)
  · left
    rw [Bool.not_eq_true']
    rw [← Bool.not_eq_true]
    intro hany
    rcases List.any_eq_true.mp hany with ⟨r, hr, hid⟩
    exact hin ⟨r, hr, beq_iff_eq.mp hid⟩

/-! ### Merge of Expand plans (src/lib/ai.ts:260-305)

`ExpandPlanPlus` (src/lib/schemas.ts:127-139) with the `passthrough`
field `categories` on assignments that the pass-2 coverage repair reads
(`assignment.categories?.[0]?.key`, src/index.tsx:1448-1527); absent
optional strings are `[]`. -/

structure SummaryEntry where
  id : Str
  summary : Str
  key_topics : List Str
deriving Repr, DecidableEq

structure AssignCat where
  key : Str
deriving Repr, DecidableEq

structure Assignment where
  repo : Str
  category : Str
  reason : Str
  tags : List Str
  categories : List AssignCat
deriving Repr, DecidableEq

structure ExpandPlan where
  categories : List CatDraft
  assignments : List Assignment
  summaries : List SummaryEntry
deriving Repr, DecidableEq

structure SummaryRec where
  summary : Str
  key_topics : List Str
deriving Repr, DecidableEq

structure MergedPlan where
  categories : List CatDraft
  assignments : List Assignment
  summaries : List (Str × SummaryRec)
deriving Repr, DecidableEq

/-- Insertion-ordered set accumulation (`Set.add` skips elements already
seen). -/
def addUnique (acc : List Str) (ts : List Str) : List Str :=
  ts.foldl (fun a t => if t ∈ a then a else a ++ [t]) acc

/-- One summary entry folded into the record (src/lib/ai.ts:288-302):
the first occurrence for an id is stored verbatim (its summary wins even
when empty, per the code; the inline comment claims first *non-empty*
wins); later occurrences only extend the deduplicated topic set, capped
at 12. -/
def mergeSummaryStep (acc : List (Str × SummaryRec)) (s : SummaryEntry) :
    List (Str × SummaryRec) :=
  match alookup acc s.id with
  | none => acc ++ [(s.id, ⟨s.summary, s.key_topics⟩)]
  | some _ =>
    aupdate acc s.id fun cur =>
      ⟨cur.summary, (addUnique (addUnique [] cur.key_topics) s.key_topics).take 12⟩

/-- One category draft folded into the map (src/lib/ai.ts:269-284):
keyed by normalized slug, first-seen value wins. -/
def mergeCatStep (acc : List (Str × CatDraft)) (c : CatDraft) :
    List (Str × CatDraft) :=
  if c.slug ≠ [] ∨ c.title ≠ [] then
    match alookup acc (slugify (if c.slug ≠ [] then c.slug else c.title)) with
    | some _ => acc
    | none =>
      acc ++ [(slugify (if c.slug ≠ [] then c.slug else c.title),
        ⟨slugify (if c.slug ≠ [] then c.slug else c.title),
         c.title, c.description, c.criteria⟩)]
  else acc

/-- `mergeExpandPlans` (src/lib/ai.ts:260-305). -/
def mergeExpandPlans (plans : List ExpandPlan) : MergedPlan :=
  { categories :=
      (plans.foldl (fun acc p => p.categories.foldl mergeCatStep acc) []).map
        (·.2)
    assignments := plans.foldl (fun acc p => acc ++ p.assignments) []
    summaries :=
      plans.foldl (fun acc p => p.summaries.foldl mergeSummaryStep acc) [] }

/-- C9 (code bug evidence): merging a plan whose summary for `"r1"` is
empty with a later plan carrying the non-empty summary `"hello"` keeps
the empty summary — the first occurrence wins even when empty, although
the code's own comment (src/lib/ai.ts:287) says "first non-empty wins",
which is what the claim states. -/
theorem mergeExpandPlans_keeps_empty_first_summary :
    (mergeExpandPlans
      [⟨[], [], [⟨('r' :: '1' :: []), [], []⟩]⟩,
       ⟨[], [], [⟨('r' :: '1' :: []),
         ('h' :: 'e' :: 'l' :: 'l' :: 'o' :: []), []⟩]⟩]).summaries =
      [(('r' :: '1' :: []), ⟨[], []⟩)] := by decide

/-! ### Pass-2 coverage repair and store construction (src/index.tsx)

The repair step of src/index.tsx:1466-1541 and
`makeStoreFromStreamlined` (src/index.tsx:726-815).  `Date.now()` is
the parameter `now`; `daysSince` (src/unnamed/part_002:34) becomes
`pushed_at.map (fun t => (now - t) / 86400000)`. -/

structure StreamRepo where
  id : Str
  primaryCategory : Str
  reason : Str
  tags : List Str
  confidence : Rat
deriving Repr, DecidableEq

structure StreamPlan where
  categories : List CatDraft
  aliases : List (Str × Str)
  repos : List StreamRepo
deriving Repr, DecidableEq

/-- The frequency map over slugified primary categories
(src/index.tsx:1474-1483); insertion order is first occurrence. -/
def freqOf (repos : List StreamRepo) : List (Str × Nat) :=
  repos.foldl
    (fun m r =>
      if slugify r.primaryCategory = [] then m
      else
        match alookup m (slugify r.primaryCategory) with
        | some _ => aupdate m (slugify r.primaryCategory) (· + 1)
        | none => m ++ [(slugify r.primaryCategory, 1)])
    []

/-- The dominant-slug scan (src/index.tsx:1484-1491): strict
`n > dominantCount` starting from `('', -1)`, so the first maximum in
insertion order wins. -/
def dominantOf (freq : List (Str × Nat)) : Str :=
  (freq.foldl
    (fun best kv => if (kv.2 : Int) > best.2 then (kv.1, (kv.2 : Int)) else best)
    (([] : Str), (-1 : Int))).1

def catKeySlug (c : CatDraft) : Str :=
  slugify (if c.slug ≠ [] then c.slug else c.title)

/-- The no-dominant fallback to a merge-proposed category
(src/index.tsx:1492-1514): prefer `'libraries'` when proposed, else the
first proposed category's slug-or-title (or `'libraries'` when both are
empty). -/
def dominantFallback (merged : MergedPlan) (dominant : Str) : Str :=
  if dominant = [] ∧ merged.categories ≠ [] then
    match merged.categories.find? (fun c => catKeySlug c == ("libraries").data) with
    | some _ => ("libraries").data
    | none =>
      match merged.categories with
      | c0 :: _ =>
        slugify (if c0.slug ≠ [] then c0.slug
          else if c0.title ≠ [] then c0.title else ("libraries").data)
      | [] => dominant
  else dominant

/-- The per-record merged-assignment index (src/index.tsx:1516-1527),
built from the passthrough `categories[0].key` field. -/
def mergedAssignIndex (merged : MergedPlan) : List (Str × Str) :=
  merged.assignments.foldl
    (fun m a =>
      match a.categories with
      | c :: _ =>
        if a.repo ≠ [] ∧ c.key ≠ [] then aupsert m a.repo (slugify c.key) else m
      | [] => m)
    []

/-- The fallback slug for one missing record
(src/index.tsx:1529-1531): `mergedAssignIndex[id] || dominantSlug ||
'libraries'`. -/
def inferredFor (mai : List (Str × Str)) (dominant : Str) (id : Str) : Str :=
  if (alookup mai id).getD [] ≠ [] then (alookup mai id).getD []
  else if dominant ≠ [] then dominant
  else ("libraries").data

/-- The coverage repair (src/index.tsx:1466-1541): every feature id not
already assigned is appended with the inferred fallback category. -/
def repairCoverage (features : List RepoFeature) (sl : StreamPlan)
    (merged : MergedPlan) : StreamPlan :=
  if (features.filter fun f => ¬ (sl.repos.any fun r => r.id == f.id)).isEmpty
  then sl
  else
    { sl with
      repos := sl.repos ++
        ((features.filter fun f => ¬ (sl.repos.any fun r => r.id == f.id)).map
          fun m =>
            ⟨m.id,
             inferredFor (mergedAssignIndex merged)
               (dominantFallback merged (dominantOf (freqOf sl.repos))) m.id,
             ("Auto-filled to ensure full coverage").data, [], (1 / 2 : Rat)⟩) }

/-- The slug collision guard of `makeStoreFromStreamlined`
(src/index.tsx:735-742): try `base`, then `base-2`, `base-3`, …; a free
candidate exists among the first `seen.length + 1` numbered ones by
pigeonhole, so the bounded search below finds the same slug the JS
`while` loop does (the `none` arm is unreachable). -/
def uniqueSlug (seen : List Str) (base : Str) : Str :=
  if base ∉ seen then base
  else
    match (List.range (seen.length + 1)).find?
      (fun k => decide ((base ++ '-' :: (Nat.repr (k + 2)).data) ∉ seen)) with
    | some k => base ++ '-' :: (Nat.repr (k + 2)).data
    | none => base

/-- Category creation from the streamlined plan (src/index.tsx:744-761),
carrying the seen-slug set. -/
def catsFromPlan (cats : List CatDraft) : List Category × List Str :=
  cats.foldl
    (fun st c =>
      if c.slug ≠ [] ∨ c.title ≠ [] then
        (st.1 ++ [⟨uniqueSlug st.2 (catKeySlug c), c.title, c.description,
          c.criteria, []⟩],
         st.2 ++ [uniqueSlug st.2 (catKeySlug c)])
      else st)
    ([], [])

/-- Assigning one streamlined repo (src/index.tsx:766-800): slugify the
primary category (`'uncategorized'` when falsy), create the category on
demand, append the entry, and index the repo. -/
def assignStep (repoById : List (Str × RepoFeature)) (now : Int)
    (st : List Category × List (Str × Str)) (r : StreamRepo) :
    List Category × List (Str × Str) :=
  let primaryCategory :=
    if r.primaryCategory ≠ [] then r.primaryCategory else ("uncategorized").data
  let catSlug := slugify primaryCategory
  let cats :=
    if st.1.any fun c => c.slug == catSlug then st.1
    else st.1 ++ [⟨catSlug, primaryCategory, [], [], []⟩]
  let entry : RepoEntry :=
    ⟨r.id, r.reason, r.tags, some r.confidence,
     (alookup repoById r.id).map fun src =>
       ⟨src.pushed_at.map fun t => (now - t) / 86400000, none, some src.archived⟩⟩
  ((cats.map fun c =>
      if c.slug == catSlug then { c with repos := c.repos ++ [entry] } else c),
   aupsert st.2 r.id catSlug)

/-- Repo ordering of src/index.tsx:805-812: recency ascending with
missing `last_commit_days` as `Infinity`, ties by id. -/
def recencyLe (a b : RepoEntry) : Bool :=
  match a.quality.bind (·.last_commit_days), b.quality.bind (·.last_commit_days) with
  | some x, some y => if x = y then strLe a.id b.id else decide (x < y)
  | some _, none => true
  | none, some _ => false
  | none, none => strLe a.id b.id

/-- `makeStoreFromStreamlined` (src/index.tsx:726-815). -/
def makeStoreFromStreamlined (features : List RepoFeature) (sl : StreamPlan)
    (now : Int) : Store :=
  let repoById := features.foldl (fun m r => aupsert m r.id r) []
  let st := sl.repos.foldl (assignStep repoById now)
    ((catsFromPlan sl.categories).1, [])
  { categories :=
      (st.1.map fun c => { c with repos := c.repos.mergeSort recencyLe
        }).mergeSort titleLe
    index := st.2
    aliases := sl.aliases }

/-! ### C5: the coverage repair -/

theorem mem_keys_aupsert_self {β : Type} (m : List (Str × β)) (k : Str)
    (v : β) : k ∈ (aupsert m k v).map (·.1) := by
  unfold aupsert
  split
  · rename_i hsome
    rw [List.find?_isSome] at hsome
    rcases hsome with ⟨kv, hkv, hb⟩
    refine List.mem_map.mpr ⟨(k, v), ?_, rfl⟩
    exact List.mem_map.mpr ⟨kv, hkv, by rw [if_pos hb]⟩
  · rw [List.map_append]
    exact List.mem_append_right _ (by simp)

theorem mem_keys_aupsert_mono {β : Type} {m : List (Str × β)} {k' : Str}
    (k : Str) (v : β) (h : k' ∈ m.map (·.1)) :
    k' ∈ (aupsert m k v).map (·.1) := by
  rcases keys_aupsert m k v with he | ⟨he, -⟩
  · rw [he]; exact h
  · rw [he]; exact List.mem_append_left _ h

/-- The assign loop of `makeStoreFromStreamlined` indexes every repo it
processes and never unindexes one. -/
theorem assignStep_fold_covers (repoById : List (Str × RepoFeature))
    (now : Int) (repos : List StreamRepo) :
    ∀ (st : List Category × List (Str × Str)),
      (∀ id, id ∈ st.2.map (·.1) →
        id ∈ (repos.foldl (assignStep repoById now) st).2.map (·.1))
      ∧ ∀ r ∈ repos,
        r.id ∈ (repos.foldl (assignStep repoById now) st).2.map (·.1) := by
  induction repos with
  | nil =>
    intro st
    exact ⟨fun id h => h, fun r hr => absurd hr (List.not_mem_nil r)⟩
  | cons r rest ih =>
    intro st
    simp only [List.foldl_cons]
    constructor
    · intro id h
      exact (ih _).1 id (mem_keys_aupsert_mono _ _ h)
    · intro r' hr'
      rcases List.mem_cons.mp hr' with rfl | hr'
      · exact (ih _).1 r'.id (mem_keys_aupsert_self _ _ _)
      · exact (ih _).2 r' hr'

/-- C5 (amended): the repair step covers every input record — after
`makeStoreFromStreamlined` on the repaired plan, `store.index` has an
entry for every feature id — and each record left unassigned by the
inference call is appended with the fallback priority the code
implements: its merged Expand assignment first, then the most frequent
already-assigned category, then a merge-proposed category / the literal
`'libraries'` (`inferredFor`/`dominantFallback`).  The claim's
"most frequent category" description omits the merged-assignment
priority, which the counterexample below exercises. -/
theorem repairCoverage_covers_all_ids (features : List RepoFeature)
    (sl : StreamPlan) (merged : MergedPlan) (now : Int) :
    (∀ f ∈ features,
      f.id ∈ ((makeStoreFromStreamlined features
        (repairCoverage features sl merged) now).index.map (·.1)))
    ∧ ∀ f ∈ features, ¬ (∃ r ∈ sl.repos, r.id = f.id) →
        ∃ r ∈ (repairCoverage features sl merged).repos, r.id = f.id ∧
          r.primaryCategory = inferredFor (mergedAssignIndex merged)
            (dominantFallback merged (dominantOf (freqOf sl.repos))) f.id := by
  have hany : ∀ f : RepoFeature,
      (sl.repos.any fun r => r.id == f.id) = true ↔ ∃ r ∈ sl.repos, r.id = f.id := by
    intro f
    rw [List.any_eq_true]
    constructor
    · intro ⟨r, hr, hb⟩
      exact ⟨r, hr, beq_iff_eq.mp hb⟩
    · intro ⟨r, hr, hb⟩
      exact ⟨r, hr, beq_iff_eq.mpr hb⟩
  have hrepos : ∀ f ∈ features, ∃ r ∈ (repairCoverage features sl merged).repos,
      r.id = f.id ∧ ((∃ r₀ ∈ sl.repos, r₀.id = f.id) ∨
        r.primaryCategory = inferredFor (mergedAssignIndex merged)
          (dominantFallback merged (dominantOf (freqOf sl.repos))) f.id) := by
    intro f hf
    unfold repairCoverage
    by_cases hassigned : ∃ r ∈ sl.repos, r.id = f.id
    · rcases hassigned with ⟨r, hr, hid⟩
      split
      · exact ⟨r, hr, hid, Or.inl ⟨r, hr, hid⟩⟩
      · exact ⟨r, List.mem_append_left _ hr, hid, Or.inl ⟨r, hr, hid⟩⟩
    · have hpred : (¬ (sl.repos.any fun r => r.id == f.id) = true) := by
        rw [hany f]
        exact hassigned
      have hfmem : f ∈ features.filter
          fun f => ¬ (sl.repos.any fun r => r.id == f.id) :=
        List.mem_filter.mpr ⟨hf, decide_eq_true hpred⟩
      split
      · rename_i hempty
        rw [List.isEmpty_iff] at hempty
        rw [hempty] at hfmem
        exact absurd hfmem (List.not_mem_nil f)
      · refine ⟨⟨f.id,
          inferredFor (mergedAssignIndex merged)
            (dominantFallback merged (dominantOf (freqOf sl.repos))) f.id,
          ("Auto-filled to ensure full coverage").data, [], (1 / 2 : Rat)⟩,
          ?_, rfl, Or.inr rfl⟩
        refine List.mem_append_right _ ?_
        exact List.mem_map.mpr ⟨f, hfmem, rfl⟩
  constructor
  · intro f hf
    rcases hrepos f hf with ⟨r, hr, hid, -⟩
    have hcov := (assignStep_fold_covers
      (features.foldl (fun m r => aupsert m r.id r) []) now
      (repairCoverage features sl merged).repos
      ((catsFromPlan (repairCoverage features sl merged).categories).1, [])).2
      r hr
    rw [hid] at hcov
    exact hcov
  · intro f hf hmiss
    rcases hrepos f hf with ⟨r, hr, hid, hcase⟩
    rcases hcase with h | h
    · exact absurd h hmiss
    · exact ⟨r, hr, hid, h⟩

/-- Witness for C5's amended theorem at the spec's scenario: five
records, four assigned, the fifth auto-filled; its fallback is the
dominant category `"tools"` here (no merged assignment for it). -/
theorem repairCoverage_covers_all_ids_witness :
    (∀ f ∈ [(⟨("r1").data, 0, false, none⟩ : RepoFeature),
        ⟨("r2").data, 0, false, none⟩, ⟨("r3").data, 0, false, none⟩,
        ⟨("r4").data, 0, false, none⟩, ⟨("r5").data, 0, false, none⟩],
      f.id ∈ ((makeStoreFromStreamlined
        [⟨("r1").data, 0, false, none⟩, ⟨("r2").data, 0, false, none⟩,
         ⟨("r3").data, 0, false, none⟩, ⟨("r4").data, 0, false, none⟩,
         ⟨("r5").data, 0, false, none⟩]
        (repairCoverage
          [⟨("r1").data, 0, false, none⟩, ⟨("r2").data, 0, false, none⟩,
           ⟨("r3").data, 0, false, none⟩, ⟨("r4").data, 0, false, none⟩,
           ⟨("r5").data, 0, false, none⟩]
          ⟨[], [], [⟨("r1").data, ("tools").data, [], [], (1 : Rat)⟩,
            ⟨("r2").data, ("tools").data, [], [], (1 : Rat)⟩,
            ⟨("r3").data, ("tools").data, [], [], (1 : Rat)⟩,
            ⟨("r4").data, ("apps").data, [], [], (1 : Rat)⟩]⟩
          ⟨[], [], []⟩) 0).index.map (·.1)))
    ∧ ∃ r ∈ (repairCoverage
          [⟨("r1").data, 0, false, none⟩, ⟨("r2").data, 0, false, none⟩,
           ⟨("r3").data, 0, false, none⟩, ⟨("r4").data, 0, false, none⟩,
           ⟨("r5").data, 0, false, none⟩]
          ⟨[], [], [⟨("r1").data, ("tools").data, [], [], (1 : Rat)⟩,
            ⟨("r2").data, ("tools").data, [], [], (1 : Rat)⟩,
            ⟨("r3").data, ("tools").data, [], [], (1 : Rat)⟩,
            ⟨("r4").data, ("apps").data, [], [], (1 : Rat)⟩]⟩
          ⟨[], [], []⟩).repos, r.id = ("r5").data ∧
        r.primaryCategory = ("tools").data := by
  have hth := repairCoverage_covers_all_ids
    [⟨("r1").data, 0, false, none⟩, ⟨("r2").data, 0, false, none⟩,
     ⟨("r3").data, 0, false, none⟩, ⟨("r4").data, 0, false, none⟩,
     ⟨("r5").data, 0, false, none⟩]
    ⟨[], [], [⟨("r1").data, ("tools").data, [], [], (1 : Rat)⟩,
      ⟨("r2").data, ("tools").data, [], [], (1 : Rat)⟩,
      ⟨("r3").data, ("tools").data, [], [], (1 : Rat)⟩,
      ⟨("r4").data, ("apps").data, [], [], (1 : Rat)⟩]⟩
    ⟨[], [], []⟩ 0
  refine ⟨hth.1, ?_⟩
  rcases hth.2 ⟨("r5").data, 0, false, none⟩ (by decide) (by decide)
    with ⟨r, hr, hid, hcat⟩
  exact ⟨r, hr, hid, by rw [hcat]; decide⟩

/-- C5, counterexample to the claim as stated: the most frequent
category among assigned records is `"tools"`, but the missing record
`"r5"` carries a merged Expand assignment to `"web"`, which the code
prefers — `store.index["r5"]` is `"web"`, not the most frequent
category. -/
theorem repairCoverage_merged_assignment_beats_dominant :
    dominantOf (freqOf [⟨("r1").data, ("tools").data, [], [], (1 : Rat)⟩,
      ⟨("r2").data, ("tools").data, [], [], (1 : Rat)⟩,
      ⟨("r3").data, ("tools").data, [], [], (1 : Rat)⟩,
      ⟨("r4").data, ("apps").data, [], [], (1 : Rat)⟩]) = ("tools").data
    ∧ alookup (makeStoreFromStreamlined
        [⟨("r1").data, 0, false, none⟩, ⟨("r2").data, 0, false, none⟩,
         ⟨("r3").data, 0, false, none⟩, ⟨("r4").data, 0, false, none⟩,
         ⟨("r5").data, 0, false, none⟩]
        (repairCoverage
          [⟨("r1").data, 0, false, none⟩, ⟨("r2").data, 0, false, none⟩,
           ⟨("r3").data, 0, false, none⟩, ⟨("r4").data, 0, false, none⟩,
           ⟨("r5").data, 0, false, none⟩]
          ⟨[], [], [⟨("r1").data, ("tools").data, [], [], (1 : Rat)⟩,
            ⟨("r2").data, ("tools").data, [], [], (1 : Rat)⟩,
            ⟨("r3").data, ("tools").data, [], [], (1 : Rat)⟩,
            ⟨("r4").data, ("apps").data, [], [], (1 : Rat)⟩]⟩
          ⟨[], [⟨("r5").data, [], [], [],
            [⟨("web").data⟩]⟩], []⟩) 0).index ("r5").data =
      some ("web").data
    ∧ ("web").data ≠ ("tools").data := by decide

/-! ### The resilient streaming executor (src/lib/safe-stream.ts)

The inference service is a black box: an oracle
`call : Nat → List Msg → Except Err ρ` giving the outcome of each
attempt (`streamObject` either returns a stream value or throws).  The
model-limits lookup is the `limits` parameter (cached and pure in the
source, src/lib/budget.ts:23-43); `JSON.stringify` on opaque content
parts is the `stringify` parameter. -/

structure ModelLimits where
  context : Int
  output : Int
deriving Repr, DecidableEq

structure TruncPlan where
  maxInput : Int
  maxOutput : Int
  reserveOutput : Int
deriving Repr, DecidableEq

/-- `makeTruncationPlan` (src/lib/budget.ts:23-43):
`maxInput = max(4096, context - reserveOutput - SYS_OVERHEAD)` with
`SYS_OVERHEAD = 300`. -/
def makeTruncationPlan (limits : ModelLimits) (reserveOutput : Int) :
    TruncPlan :=
  ⟨max 4096 (limits.context - reserveOutput - 300), limits.output,
   reserveOutput⟩

structure Err where
  message : Str
deriving Repr, DecidableEq

/-- First index at which `pat` occurs in `s` (regex literal search). -/
def findSub (pat : Str) : Str → Option Nat
  | [] => if pat.isPrefixOf [] then some 0 else none
  | c :: rest =>
    if pat.isPrefixOf (c :: rest) then some 0
    else (findSub pat rest).map (· + 1)

def containsSub (pat s : Str) : Bool := (findSub pat s).isSome

/-- The overflow-signature classifier (src/lib/safe-stream.ts:47-50):
the case-insensitive regex
`context window|context_length|length_exceeded|too large|maximum context|token limit`. -/
def isCtxError (e : Err) : Bool :=
  let m := e.message.map Char.toLower
  containsSub ("context window").data m ||
  containsSub ("context_length").data m ||
  containsSub ("length_exceeded").data m ||
  containsSub ("too large").data m ||
  containsSub ("maximum context").data m ||
  containsSub ("token limit").data m

theorem findSub_bound {pat s : Str} {i : Nat}
    (h : findSub pat s = some i) : i + pat.length ≤ s.length := by
  induction s generalizing i with
  | nil =>
    unfold findSub at h
    split at h
    · rename_i hp
      have hle := (List.isPrefixOf_iff_prefix.mp hp).length_le
      have : i = 0 := by injection h; omega
      simp at hle
      simp [this, hle]
    · exact absurd h (by simp)
  | cons c rest ih =>
    unfold findSub at h
    split at h
    · rename_i hp
      have hle := (List.isPrefixOf_iff_prefix.mp hp).length_le
      have : i = 0 := by injection h; omega
      rw [this]
      simpa using hle
    · rcases hprev : findSub pat rest with _ | j
      · rw [hprev] at h
        exact absurd h (by simp)
      · rw [hprev] at h
        have hj := ih hprev
        have : i = j + 1 := by
          simp at h
          omega
        rw [this]
        simp only [List.length_cons]
        omega

/-- The global readme-stripping replace of src/lib/safe-stream.ts:63-67:
each lazy match `"readme":"…"` (up to the first following quote) is
replaced by `"readme":"[TRUNCATED]"`; when no closing quote follows an
opening, no further match exists (any later occurrence of the pattern
contains quote characters itself). -/
def stripReadme (s : Str) : Str :=
  match hfs : findSub (("\"readme\":\"").data) s with
  | none => s
  | some i =>
    match findSub ('"' :: []) (s.drop (i + 10)) with
    | none => s
    | some j =>
      s.take i ++ (("\"readme\":\"[TRUNCATED]\"").data) ++
        stripReadme (s.drop (i + 10 + j + 1))
termination_by s.length
decreasing_by
  have hb := findSub_bound hfs
  simp only [List.length_drop]
  have h10 : (("\"readme\":\"").data).length = 10 := by decide
  rw [h10] at hb
  omega

/-- The strip branch of the retry strategy
(src/lib/safe-stream.ts:58-69): only user messages with string content
are rewritten. -/
def stripMsg : Msg → Msg
  | ⟨.user, .str s⟩ => ⟨.user, .str (stripReadme s)⟩
  | m => m

/-- The halving map of the aggressive branch
(src/lib/safe-stream.ts:74-83): string contents are cut to half their
raw length (`Math.floor(len * 0.5)` is exact), other contents are
`JSON.stringify`ed. -/
def halveMsg (stringify : List Unit → Str) (m : Msg) : Msg :=
  ⟨m.role,
   .str (match m.content with
     | .str s => s.take (s.length / 2)
     | .arr ps => stringify ps)⟩

/-- The overflow retry strategy (src/lib/safe-stream.ts:56-87): if the
attempt's fit already trimmed, hard-strip readme fields; otherwise
halve raw content and re-fit to `Math.floor(maxInput * 0.6)` (the exact
`3 * maxInput / 5`). -/
def retryStrategy (stringify : List Unit → Str) (maxInput : Int)
    (fitted : List Msg × Bool) : List Msg :=
  if fitted.2 then fitted.1.map stripMsg
  else
    (fitMessagesWithinBudget (fitted.1.map (halveMsg stringify))
      (3 * maxInput / 5)).1

/-- The retry loop of `safeStreamObject` (src/lib/safe-stream.ts:32-89),
instrumented with the list of `currentMessages` per attempt and the
final attempt number.  `fuel` only bounds the recursion; it is
`maxRetries + 2 - attempt` at every call, so the `fuel = 0` arm (which
returns the same thrown error) is unreachable. -/
def safeStreamGo {ρ : Type} (stringify : List Unit → Str)
    (call : Nat → List Msg → Except Err ρ) (plan : TruncPlan)
    (maxRetries : Nat) :
    Nat → Nat → List Msg → List (List Msg) →
      Except Err ρ × List (List Msg) × Nat
  | fuel, attempt, cur, tr =>
    match call attempt (fitMessagesWithinBudget cur plan.maxInput).1 with
    | .ok r => (.ok r, tr ++ [cur], attempt)
    | .error e =>
      if isCtxError e = false ∨ attempt > maxRetries then
        (.error e, tr ++ [cur], attempt)
      else
        match fuel with
        | 0 => (.error e, tr ++ [cur], attempt)
        | fuel' + 1 =>
          safeStreamGo stringify call plan maxRetries fuel' (attempt + 1)
            (retryStrategy stringify plan.maxInput
              (fitMessagesWithinBudget cur plan.maxInput))
            (tr ++ [cur])

/-- `safeStreamObject` (src/lib/safe-stream.ts:21-90); the source
defaults are `maxRetries = 2`, `reserveOutput = 2048`. -/
def safeStreamObject {ρ : Type} (stringify : List Unit → Str)
    (call : Nat → List Msg → Except Err ρ) (limits : ModelLimits)
    (maxRetries : Nat) (reserveOutput : Int) (messages : List Msg) :
    Except Err ρ × List (List Msg) × Nat :=
  safeStreamGo stringify call (makeTruncationPlan limits reserveOutput)
    maxRetries (maxRetries + 1) 1 messages []

/-! ### C1: bounded retries, only on overflow -/

theorem safeStreamGo_all_overflow {ρ : Type} (stringify : List Unit → Str)
    (call : Nat → List Msg → Except Err ρ) (plan : TruncPlan)
    (maxRetries : Nat) (e : Nat → Err)
    (hcall : ∀ i ms, call i ms = .error (e i))
    (hctx : ∀ i, isCtxError (e i) = true) :
    ∀ (fuel : Nat) (cur : List Msg) (tr : List (List Msg)),
      1 ≤ fuel → fuel ≤ maxRetries + 1 →
      (safeStreamGo stringify call plan maxRetries fuel
          (maxRetries + 2 - fuel) cur tr).1 = .error (e (maxRetries + 1))
      ∧ (safeStreamGo stringify call plan maxRetries fuel
          (maxRetries + 2 - fuel) cur tr).2.2 = maxRetries + 1 := by
  intro fuel
  induction fuel with
  | zero =>
    intro cur tr h1 _
    omega
  | succ f ih =>
    intro cur tr h1 h2
    unfold safeStreamGo
    rw [hcall]
    dsimp only
    by_cases hf : f = 0
    · subst hf
      rw [if_pos (Or.inr (by omega))]
      have ha : maxRetries + 2 - 1 = maxRetries + 1 := by omega
      rw [ha]
      exact ⟨rfl, rfl⟩
    · rw [if_neg (by
        rw [not_or]
        constructor
        · rw [hctx]
          simp
        · omega)]
      have ha : maxRetries + 2 - (f + 1) + 1 = maxRetries + 2 - f := by omega
      rw [ha]
      exact ih _ _ (by omega) (by omega)

/-- C1: the executor makes at most `maxRetries` additional attempts.
When every attempt fails with an overflow-classified error it re-raises
the `maxRetries + 1`-st error unchanged after exactly `maxRetries + 1`
attempts; a non-overflow-classified first failure propagates unchanged
immediately, after a single attempt. -/
theorem safeStream_retry_contract {ρ : Type} (stringify : List Unit → Str)
    (limits : ModelLimits) (maxRetries : Nat) (reserveOutput : Int)
    (messages : List Msg) :
    (∀ (call : Nat → List Msg → Except Err ρ) (e : Nat → Err),
      (∀ i ms, call i ms = .error (e i)) →
      (∀ i, isCtxError (e i) = true) →
      (safeStreamObject stringify call limits maxRetries reserveOutput
          messages).1 = .error (e (maxRetries + 1))
      ∧ (safeStreamObject stringify call limits maxRetries reserveOutput
          messages).2.2 = maxRetries + 1)
    ∧ ∀ (call : Nat → List Msg → Except Err ρ) (e₀ : Err),
      (∀ ms, call 1 ms = .error e₀) → isCtxError e₀ = false →
      (safeStreamObject stringify call limits maxRetries reserveOutput
          messages).1 = .error e₀
      ∧ (safeStreamObject stringify call limits maxRetries reserveOutput
          messages).2.2 = 1 := by
  constructor
  · intro call e hcall hctx
    unfold safeStreamObject
    have h := safeStreamGo_all_overflow stringify call
      (makeTruncationPlan limits reserveOutput) maxRetries e hcall hctx
      (maxRetries + 1) messages [] (by omega) (by omega)
    have ha : maxRetries + 2 - (maxRetries + 1) = 1 := by omega
    rw [ha] at h
    exact h
  · intro call e₀ hcall hctx
    unfold safeStreamObject safeStreamGo
    rw [hcall]
    dsimp only
    rw [if_pos (Or.inl hctx)]
    exact ⟨rfl, rfl⟩

/-- Witness for C1 with the default `maxRetries = 2`: an
always-overflowing oracle yields the third error after exactly 3
attempts; a non-overflow error propagates after 1 attempt. -/
theorem safeStream_retry_contract_witness :
    ((safeStreamObject (ρ := Unit) (fun _ => [])
        (fun _ _ => .error ⟨("token limit").data⟩) ⟨0, 0⟩ 2 2048 []).1 =
      .error ⟨("token limit").data⟩
    ∧ (safeStreamObject (ρ := Unit) (fun _ => [])
        (fun _ _ => .error ⟨("token limit").data⟩) ⟨0, 0⟩ 2 2048 []).2.2 = 3)
    ∧ (safeStreamObject (ρ := Unit) (fun _ => [])
        (fun _ _ => .error ⟨("boom").data⟩) ⟨0, 0⟩ 2 2048 []).1 =
      .error ⟨("boom").data⟩
    ∧ (safeStreamObject (ρ := Unit) (fun _ => [])
        (fun _ _ => .error ⟨("boom").data⟩) ⟨0, 0⟩ 2 2048 []).2.2 = 1 := by
  have hth := safeStream_retry_contract (ρ := Unit) (fun _ => []) ⟨0, 0⟩ 2
    2048 []
  refine ⟨?_, ?_⟩
  · exact hth.1 (fun _ _ => .error ⟨("token limit").data⟩)
      (fun _ => ⟨("token limit").data⟩) (fun _ _ => rfl)
      (fun i => by
        show isCtxError ⟨("token limit").data⟩ = true
        decide)
  · exact hth.2 (fun _ _ => .error ⟨("boom").data⟩) ⟨("boom").data⟩
      (fun _ => rfl) (by decide)

/-! ### C8: the shape of the first recovery step -/

theorem safeStreamGo_trace_cons {ρ : Type} (stringify : List Unit → Str)
    (call : Nat → List Msg → Except Err ρ) (plan : TruncPlan)
    (maxRetries : Nat) :
    ∀ (fuel attempt : Nat) (cur : List Msg) (tr : List (List Msg)),
      ∃ rest, (safeStreamGo stringify call plan maxRetries fuel attempt cur
        tr).2.1 = tr ++ cur :: rest := by
  intro fuel
  induction fuel with
  | zero =>
    intro attempt cur tr
    unfold safeStreamGo
    cases call attempt (fitMessagesWithinBudget cur plan.maxInput).1 with
    | ok r => exact ⟨[], rfl⟩
    | error e =>
      dsimp only
      split
      · exact ⟨[], rfl⟩
      · exact ⟨[], rfl⟩
  | succ f ih =>
    intro attempt cur tr
    unfold safeStreamGo
    cases call attempt (fitMessagesWithinBudget cur plan.maxInput).1 with
    | ok r => exact ⟨[], rfl⟩
    | error e =>
      dsimp only
      split
      · exact ⟨[], rfl⟩
      · rcases ih (attempt + 1)
          (retryStrategy stringify plan.maxInput
            (fitMessagesWithinBudget cur plan.maxInput)) (tr ++ [cur])
          with ⟨rest, hrest⟩
        refine ⟨retryStrategy stringify plan.maxInput
          (fitMessagesWithinBudget cur plan.maxInput) :: rest, ?_⟩
        rw [hrest]
        simp

/-- C8 (amended): when the first attempt fails with an overflow error
(and `maxRetries ≥ 1`), the messages of the second attempt are produced
by the branch of src/lib/safe-stream.ts:56-87 that depends on whether
the first fit *trimmed*: if it did, the recovery is the field-level
readme truncation; only if it did not is it the proportional
halve-and-refit.  (The claim says the proportional shrink always comes
first and the field-level truncation only on a second overflow, which
the counterexample refutes.) -/
theorem safeStream_first_recovery {ρ : Type} (stringify : List Unit → Str)
    (call : Nat → List Msg → Except Err ρ) (limits : ModelLimits)
    (maxRetries : Nat) (reserveOutput : Int) (messages : List Msg)
    (e : Err) (hmr : 1 ≤ maxRetries)
    (hcall : call 1 (fitMessagesWithinBudget messages
      (makeTruncationPlan limits reserveOutput).maxInput).1 = .error e)
    (hctx : isCtxError e = true) :
    (safeStreamObject stringify call limits maxRetries reserveOutput
        messages).2.1.get? 1 =
      some (if (fitMessagesWithinBudget messages
          (makeTruncationPlan limits reserveOutput).maxInput).2 then
        (fitMessagesWithinBudget messages
          (makeTruncationPlan limits reserveOutput).maxInput).1.map stripMsg
      else
        (fitMessagesWithinBudget
          ((fitMessagesWithinBudget messages
            (makeTruncationPlan limits reserveOutput).maxInput).1.map
            (halveMsg stringify))
          (3 * (makeTruncationPlan limits reserveOutput).maxInput / 5)).1) := by
  unfold safeStreamObject safeStreamGo
  rw [hcall]
  dsimp only
  rw [if_neg (by
    rw [not_or]
    constructor
    · rw [hctx]
      simp
    · omega)]
  rcases safeStreamGo_trace_cons stringify call
    (makeTruncationPlan limits reserveOutput) maxRetries maxRetries 2
    (retryStrategy stringify (makeTruncationPlan limits reserveOutput).maxInput
      (fitMessagesWithinBudget messages
        (makeTruncationPlan limits reserveOutput).maxInput))
    ([] ++ [messages]) with ⟨rest, hrest⟩
  rw [hrest]
  rfl

/-- Witness for C8's amended theorem: an empty message list (the fit
does not trim), so the first recovery is the halve-and-refit branch,
which is again empty. -/
theorem safeStream_first_recovery_witness :
    (safeStreamObject (ρ := Unit) (fun _ => [])
      (fun i _ => if i = 1 then .error ⟨("token limit").data⟩ else .ok ())
      ⟨0, 0⟩ 2 2048 []).2.1.get? 1 = some [] := by
  have h := safeStream_first_recovery (ρ := Unit) (fun _ => [])
    (fun i _ => if i = 1 then .error ⟨("token limit").data⟩ else .ok ())
    ⟨0, 0⟩ 2 2048 [] ⟨("token limit").data⟩ (by omega) (by rfl) (by decide)
  rw [h]
  decide

/-! ### Evaluation and invariant lemmas for the trimming loop -/

/-- The cons-equation of `fitLoop` with its `let`s expanded. -/
theorem fitLoop_cons (maxT : Int) (i : Nat) (rest : List Nat) (st : FitSt) :
    fitLoop maxT (i :: rest) st =
      if st.total ≤ maxT then st
      else
        match st.cloned.get? i with
        | none => st
        | some m =>
          if headTailSlice m.content
              (targetOf maxT st.total ((st.counts.get? i).getD 0)) =
              m.content then
            fitLoop maxT rest st
          else
            fitLoop maxT rest
              { cloned := st.cloned.set i ⟨m.role, headTailSlice m.content
                  (targetOf maxT st.total ((st.counts.get? i).getD 0))⟩
                counts := st.counts.set i (estimateTokens (headTailSlice
                  m.content (targetOf maxT st.total
                    ((st.counts.get? i).getD 0))))
                total := st.total - (((st.counts.get? i).getD 0 : Nat) : Int) +
                  estimateTokens (headTailSlice m.content
                    (targetOf maxT st.total ((st.counts.get? i).getD 0)))
                trimmed := true } := rfl

/-- Once within budget the loop is the identity (the `break` of
src/lib/budget.ts:85). -/
theorem fitLoop_le {maxT : Int} {st : FitSt} (h : st.total ≤ maxT) :
    ∀ l, fitLoop maxT l st = st
  | [] => rfl
  | i :: _ => by rw [fitLoop_cons, if_pos h]

/-- Indexes whose message is already a `headTailSlice` fixed point are
skipped without changing the state. -/
theorem fitLoop_append_skip {maxT : Int} {st : FitSt} :
    ∀ {l₁ : List Nat} (l' : List Nat),
      (∀ i ∈ l₁, ∃ m, st.cloned.get? i = some m ∧
        headTailSlice m.content
          (targetOf maxT st.total ((st.counts.get? i).getD 0)) = m.content) →
      fitLoop maxT (l₁ ++ l') st = fitLoop maxT l' st := by
  intro l₁
  induction l₁ with
  | nil =>
    intro l' _
    rfl
  | cons i l₁ ih =>
    intro l' h
    by_cases ht : st.total ≤ maxT
    · rw [List.cons_append, fitLoop_cons, if_pos ht, fitLoop_le ht]
    · rcases h i (by simp) with ⟨m, hm, hfix⟩
      rw [List.cons_append, fitLoop_cons, if_neg ht, hm]
      dsimp only
      rw [if_pos hfix]
      exact ih l' fun j hj => h j (by simp [hj])

/-- The trimming order is a permutation of the message indexes. -/
theorem fitOrder_perm_range (msgs : List Msg) :
    (fitOrder msgs).Perm (List.range msgs.length) := by
  unfold fitOrder
  have h := (List.mergeSort_perm (((msgs.zip (fitCounts msgs)).enum).map
      fun p => (p.1, p.2.1.role, p.2.2)) fitLe).map (·.1)
  refine h.trans ?_
  rw [List.map_map]
  have h2 : ((fun x : Nat × Role × Nat => x.1) ∘
      fun p : Nat × (Msg × Nat) => (p.1, p.2.1.role, p.2.2)) = Prod.fst := by
    funext p
    rfl
  rw [h2, List.enum_eq_zip_range,
    List.map_fst_zip _ _ (by simp)]
  have h3 : (msgs.zip (fitCounts msgs)).length = msgs.length := by
    simp [fitCounts]
  rw [h3]

theorem mem_fitOrder {msgs : List Msg} {i : Nat} :
    i ∈ fitOrder msgs ↔ i < msgs.length := by
  rw [(fitOrder_perm_range msgs).mem_iff, List.mem_range]

theorem fitOrder_nodup (msgs : List Msg) : (fitOrder msgs).Nodup :=
  ((fitOrder_perm_range msgs).nodup_iff).mpr (List.nodup_range _)

/-- When the slice actually fires it lands within the budget (only used
for budgets `≥ 40`; the loop's targets are all `≥ 512`). -/
theorem estimateTokens_slice_le {t : Str} {b : Nat} (hb : 40 ≤ b)
    (hover : b < estimateTokens t) :
    estimateTokens (headTailSlice t b) ≤ b := by
  have hne : t ≠ [] := by
    intro h
    rw [h] at hover
    simp [estimateTokens] at hover
  have := headTailSlice_length_le t b hb hne hover
  unfold estimateTokens at *
  omega

/-- A fixed point of `headTailSlice` at budget `≥ 40` is within budget:
the sliced form of an over-budget text is strictly shorter than the
text, so it can never equal it. -/
theorem headTailSlice_fixed_le {t : Str} {b : Nat} (hb : 40 ≤ b)
    (hfix : headTailSlice t b = t) : estimateTokens t ≤ b := by
  by_cases h : estimateTokens t ≤ b
  · exact h
  · have h2 := estimateTokens_slice_le hb (b := b) (t := t) (by omega)
    rw [hfix] at h2
    omega

theorem targetOf_ge (maxT total : Int) (cur : Nat) :
    512 ≤ targetOf maxT total cur := by
  unfold targetOf
  omega

/-- The shrink target only grows as `total - cur` falls. -/
theorem targetOf_anti {maxT t t' : Int} {c c' : Nat}
    (h : t' - (c' : Int) ≤ t - (c : Int)) :
    targetOf maxT t c ≤ targetOf maxT t' c' := by
  unfold targetOf
  omega

theorem sum_set_get? {l : List Nat} {i old new : Nat}
    (h : l.get? i = some old) :
    (l.set i new).sum + old = l.sum + new := by
  induction l generalizing i with
  | nil => simp at h
  | cons a l ih =>
    cases i with
    | zero =>
      simp at h
      subst h
      simp [List.set]
      omega
    | succ i =>
      rw [List.get?_cons_succ] at h
      have := ih h
      simp [List.set]
      omega

theorem get?_some_of_lt {α : Type} {l : List α} {i : Nat}
    (h : i < l.length) : ∃ m, l.get? i = some m := by
  cases hm : l.get? i with
  | none =>
    rw [List.get?_eq_none] at hm
    omega
  | some m => exact ⟨m, rfl⟩

/-- The loop-state invariant of src/lib/budget.ts:51-104 for all-string
message lists: `counts` tracks the token estimate of each cloned
message and `total` is their sum plus `JSON_OVERHEAD`. -/
def FitInv (st : FitSt) : Prop :=
  st.counts.length = st.cloned.length ∧
  st.total = (st.counts.sum : Int) + 300 ∧
  ∀ i, st.counts.get? i = (st.cloned.get? i).map fun m =>
    estimateTokens m.content

/-- Message `i` needs no further shrinking at the final state. -/
def FitDone (maxT : Int) (st : FitSt) (i : Nat) : Prop :=
  ∀ m, st.cloned.get? i = some m →
    estimateTokens m.content ≤
      targetOf maxT st.total ((st.counts.get? i).getD 0)

/-- Main induction over the trimming loop: the invariant is preserved,
`total` never grows, untouched cells are framed, and on exit either the
budget is met or every visited message is a `headTailSlice` fixed point
at the final (largest) target. -/
theorem fitLoop_main (maxT : Int) :
    ∀ (l : List Nat) (st : FitSt), FitInv st → l.Nodup →
      (∀ i ∈ l, i < st.cloned.length) →
      FitInv (fitLoop maxT l st) ∧
      (fitLoop maxT l st).total ≤ st.total ∧
      (fitLoop maxT l st).cloned.length = st.cloned.length ∧
      (∀ j, j ∉ l →
        (fitLoop maxT l st).cloned.get? j = st.cloned.get? j ∧
        (fitLoop maxT l st).counts.get? j = st.counts.get? j) ∧
      ((fitLoop maxT l st).total ≤ maxT ∨
        ∀ i ∈ l, FitDone maxT (fitLoop maxT l st) i) := by
  intro l
  induction l with
  | nil =>
    intro st hInv _ _
    exact ⟨hInv, le_refl _, rfl, fun j _ => ⟨rfl, rfl⟩, Or.inr (by simp)⟩
  | cons i rest ih =>
    intro st hInv hnd hrange
    by_cases ht : st.total ≤ maxT
    · rw [fitLoop_cons, if_pos ht]
      exact ⟨hInv, le_refl _, rfl, fun j _ => ⟨rfl, rfl⟩, Or.inl ht⟩
    · obtain ⟨m, hm⟩ := get?_some_of_lt (hrange i (by simp))
      have hcnt : st.counts.get? i = some (estimateTokens m.content) := by
        rw [hInv.2.2 i, hm]
        rfl
      have hcur : (st.counts.get? i).getD 0 = estimateTokens m.content := by
        rw [hcnt]
        rfl
      have hb40 : 40 ≤ targetOf maxT st.total ((st.counts.get? i).getD 0) :=
        le_trans (by omega) (targetOf_ge maxT st.total _)
      have hndr : rest.Nodup := (List.nodup_cons.mp hnd).2
      have hir : i ∉ rest := (List.nodup_cons.mp hnd).1
      rw [fitLoop_cons, if_neg ht, hm]
      dsimp only
      by_cases hfix : headTailSlice m.content
          (targetOf maxT st.total ((st.counts.get? i).getD 0)) = m.content
      · rw [if_pos hfix]
        obtain ⟨iInv, iLe, iLen, iFrame, iAlt⟩ := ih st hInv hndr
          (fun j hj => hrange j (by simp [hj]))
        refine ⟨iInv, iLe, iLen, ?_, ?_⟩
        · intro j hj
          exact iFrame j fun hj' => hj (by simp [hj'])
        · rcases iAlt with hle | hall
          · exact Or.inl hle
          · refine Or.inr ?_
            intro i' hi'
            rcases List.mem_cons.mp hi' with hEq | hi'r
            · subst hEq
              intro m' hm'
              rw [(iFrame _ hir).1, hm] at hm'
              injection hm' with hmm
              subst hmm
              refine le_trans (headTailSlice_fixed_le hb40 hfix) ?_
              rw [(iFrame _ hir).2, hcur]
              exact targetOf_anti (by rw [← hcur]; omega)
            · exact hall i' hi'r
      · rw [if_neg hfix]
        set b := targetOf maxT st.total ((st.counts.get? i).getD 0) with hbdef
        have hover : b < estimateTokens m.content := by
          by_contra hle
          exact hfix (headTailSlice_of_le (by omega))
        have hshort : estimateTokens (headTailSlice m.content b) ≤ b :=
          estimateTokens_slice_le hb40 hover
        have hilen : i < st.counts.length := by
          rw [hInv.1]
          exact hrange i (by simp)
        set stS : FitSt :=
          { cloned := st.cloned.set i ⟨m.role, headTailSlice m.content b⟩
            counts := st.counts.set i
              (estimateTokens (headTailSlice m.content b))
            total := st.total - (((st.counts.get? i).getD 0 : Nat) : Int) +
              estimateTokens (headTailSlice m.content b)
            trimmed := true } with hstS
        have hSc : stS.cloned =
            st.cloned.set i ⟨m.role, headTailSlice m.content b⟩ := rfl
        have hSk : stS.counts =
            st.counts.set i (estimateTokens (headTailSlice m.content b)) := rfl
        have hSt : stS.total = st.total - (estimateTokens m.content : Int) +
            (estimateTokens (headTailSlice m.content b) : Int) := by
          rw [hstS]
          dsimp only
          rw [hcur]
        have hInv' : FitInv stS := by
          refine ⟨by rw [hSk, hSc]; simp [hInv.1], ?_, ?_⟩
          · have hsum := @sum_set_get? st.counts i (estimateTokens m.content)
              (estimateTokens (headTailSlice m.content b)) hcnt
            have hsum' : ((st.counts.set i (estimateTokens (headTailSlice
                m.content b))).sum : Int) + (estimateTokens m.content : Int) =
                (st.counts.sum : Int) +
                (estimateTokens (headTailSlice m.content b) : Int) := by
              exact_mod_cast hsum
            have htot := hInv.2.1
            rw [hSt, hSk]
            omega
          · intro j
            rw [hSk, hSc]
            by_cases hji : j = i
            · subst hji
              rw [List.get?_set_eq, List.get?_set_eq, hcnt, hm]
              rfl
            · rw [List.get?_set_ne _ _ fun h => hji h.symm,
                List.get?_set_ne _ _ fun h => hji h.symm]
              exact hInv.2.2 j
        obtain ⟨iInv, iLe, iLen, iFrame, iAlt⟩ := ih stS hInv' hndr
          (fun j hj => by
            rw [hSc]
            simpa using hrange j (by simp [hj]))
        refine ⟨iInv, ?_, ?_, ?_, ?_⟩
        · refine le_trans iLe ?_
          rw [hSt]
          omega
        · rw [iLen, hSc]
          simp
        · intro j hj
          have hji : j ≠ i := fun h => hj (by simp [h])
          have hfr := iFrame j fun h => hj (by simp [h])
          refine ⟨?_, ?_⟩
          · rw [hfr.1, hSc]
            exact List.get?_set_ne _ _ fun h => hji h.symm
          · rw [hfr.2, hSk]
            exact List.get?_set_ne _ _ fun h => hji h.symm
        · rcases iAlt with hle | hall
          · exact Or.inl hle
          · refine Or.inr ?_
            intro i' hi'
            rcases List.mem_cons.mp hi' with hEq | hi'r
            · subst hEq
              intro m' hm'
              rw [(iFrame _ hir).1, hSc, List.get?_set_eq, hm] at hm'
              injection hm' with hmm
              subst hmm
              refine le_trans hshort ?_
              rw [(iFrame _ hir).2, hSk, List.get?_set_eq, hcnt]
              have hgd : (((fun _ => estimateTokens (headTailSlice m.content
                  b)) <$> some (estimateTokens m.content)).getD 0) =
                  estimateTokens (headTailSlice m.content b) := rfl
              rw [hgd]
              refine targetOf_anti ?_
              have h1 := iLe
              rw [hSt] at h1
              rw [hcur]
              omega
            · exact hall i' hi'r

/-- C6 (amended): `fitMessagesWithinBudget` is idempotent on message
lists whose contents are all strings: re-fitting the fitted messages
returns them unchanged with `trimmed = false`.  (For array contents the
clone step rewrites them to the `'[ARRAY_CONTENT]'` placeholder whose
token estimate differs from the `length * 10` estimate of the original,
so a second fit can shrink again — see the counterexample.) -/
theorem fit_idempotent_on_strings (messages : List Msg) (maxT : Int)
    (h : ∀ m ∈ messages, ∃ s, m.content = .str s) :
    fitMessagesWithinBudget (fitMessagesWithinBudget messages maxT).1 maxT =
      ((fitMessagesWithinBudget messages maxT).1, false) := by
  by_cases h0 : fitTotal messages ≤ maxT
  · have h1 : fitMessagesWithinBudget messages maxT = (messages, false) := by
      unfold fitMessagesWithinBudget
      rw [if_pos h0]
    rw [h1]
    exact h1
  · have hInv0 : FitInv ⟨fitClone messages, fitCounts messages,
        fitTotal messages, false⟩ := by
      refine ⟨by simp [fitCounts, fitClone], rfl, ?_⟩
      intro i
      show (fitCounts messages).get? i = _
      unfold fitCounts fitClone
      rw [List.get?_map, List.get?_map, Option.map_map]
      cases hmi : messages.get? i with
      | none => rfl
      | some m =>
        obtain ⟨s, hs⟩ := h m (List.get?_mem hmi)
        show some (contentTokens m.content) =
          some (estimateTokens (cloneContent m.content))
        rw [hs]
        rfl
    obtain ⟨fInv, fLe, fLen, fFrame, fAlt⟩ := fitLoop_main maxT
      (fitOrder messages)
      ⟨fitClone messages, fitCounts messages, fitTotal messages, false⟩
      hInv0 (fitOrder_nodup messages)
      (by
        intro i hi
        rw [mem_fitOrder] at hi
        simpa [fitClone] using hi)
    set stF := fitLoop maxT (fitOrder messages)
      ⟨fitClone messages, fitCounts messages, fitTotal messages, false⟩
      with hstF
    have hfit1 : fitMessagesWithinBudget messages maxT =
        (stF.cloned.map toMsg, stF.trimmed) := by
      unfold fitMessagesWithinBudget fitRun
      rw [if_neg h0]
    have hcloneLen : stF.cloned.length = messages.length := by
      rw [fLen]
      simp [fitClone]
    have hcounts : fitCounts (stF.cloned.map toMsg) = stF.counts := by
      have h1 : fitCounts (stF.cloned.map toMsg) =
          stF.cloned.map fun c => estimateTokens c.content := by
        unfold fitCounts
        rw [List.map_map]
        rfl
      refine List.ext_get? fun n => ?_
      rw [h1, List.get?_map, fInv.2.2 n]
    have htotM1 : fitTotal (stF.cloned.map toMsg) = stF.total := by
      unfold fitTotal
      rw [hcounts, ← fInv.2.1]
    rw [hfit1]
    dsimp only
    by_cases h2 : stF.total ≤ maxT
    · unfold fitMessagesWithinBudget
      rw [if_pos (by rw [htotM1]; exact h2)]
    · rcases fAlt with hle | hall
      · exact absurd hle h2
      have hclone : fitClone (stF.cloned.map toMsg) = stF.cloned := by
        unfold fitClone
        rw [List.map_map]
        have hcomp : ((fun m : Msg => (⟨m.role, cloneContent m.content⟩ :
            CMsg)) ∘ toMsg) = id := by
          funext c
          rfl
        rw [hcomp, List.map_id]
      have hskips : fitLoop maxT (fitOrder (stF.cloned.map toMsg))
          ⟨fitClone (stF.cloned.map toMsg),
           fitCounts (stF.cloned.map toMsg),
           fitTotal (stF.cloned.map toMsg), false⟩ =
          ⟨fitClone (stF.cloned.map toMsg),
           fitCounts (stF.cloned.map toMsg),
           fitTotal (stF.cloned.map toMsg), false⟩ := by
        have hstep := @fitLoop_append_skip maxT
          ⟨fitClone (stF.cloned.map toMsg),
            fitCounts (stF.cloned.map toMsg),
            fitTotal (stF.cloned.map toMsg), false⟩
          (fitOrder (stF.cloned.map toMsg)) []
          (by
            intro i hi
            rw [mem_fitOrder] at hi
            rw [List.length_map, hcloneLen] at hi
            obtain ⟨c, hc⟩ := get?_some_of_lt
              (l := stF.cloned) (i := i) (by rw [hcloneLen]; exact hi)
            refine ⟨c, ?_, ?_⟩
            · dsimp only
              rw [hclone]
              exact hc
            · have hdone := hall i (by rw [mem_fitOrder]; exact hi) c hc
              dsimp only
              rw [hcounts, htotM1]
              exact headTailSlice_of_le hdone)
        rw [List.append_nil] at hstep
        exact hstep
      unfold fitMessagesWithinBudget fitRun
      rw [if_neg (by rw [htotM1]; exact h2), hskips]
      dsimp only
      rw [hclone]

/-- Witness for C6's amended theorem on a concrete all-string list. -/
theorem fit_idempotent_on_strings_witness :
    (∀ m ∈ [(⟨.user, .str ('h' :: 'i' :: [])⟩ : Msg)], ∃ s,
      m.content = .str s) ∧
    fitMessagesWithinBudget
      (fitMessagesWithinBudget [(⟨.user, .str ('h' :: 'i' :: [])⟩ : Msg)]
        0).1 0 =
      ((fitMessagesWithinBudget [(⟨.user, .str ('h' :: 'i' :: [])⟩ : Msg)]
        0).1, false) := by
  have hstr : ∀ m ∈ [(⟨.user, .str ('h' :: 'i' :: [])⟩ : Msg)], ∃ s,
      m.content = .str s := by
    intro m hm
    rw [List.mem_singleton] at hm
    exact ⟨('h' :: 'i' :: []), by rw [hm]⟩
  exact ⟨hstr, fit_idempotent_on_strings _ 0 hstr⟩

/-! ### Pointwise evaluation lemmas for the slicing primitives -/

theorem dropWhile_eq_self_of {p : Char → Bool} {s : Str}
    (h : ∀ c ∈ s, p c = false) : s.dropWhile p = s := by
  cases s with
  | nil => rfl
  | cons c rest =>
    rw [List.dropWhile_cons, h c (by simp)]
    simp

theorem jsTrim_eq_self {s : Str} (h : ∀ c ∈ s, jsWs c = false) :
    jsTrim s = s := by
  unfold jsTrim
  rw [dropWhile_eq_self_of h,
    dropWhile_eq_self_of (fun c hc => h c (List.mem_reverse.mp hc))]
  exact List.reverse_reverse s

theorem sentenceBreak_eq_none {s : Str}
    (h : ∀ c ∈ s, c ≠ '.' ∧ c ≠ '!' ∧ c ≠ '?') : sentenceBreak s = none := by
  induction s with
  | nil => rfl
  | cons c rest ih =>
    cases rest with
    | nil => rfl
    | cons c₂ rest₂ =>
      unfold sentenceBreak
      have hc := h c (by simp)
      rw [if_neg (by simp [hc.1, hc.2.1, hc.2.2])]
      rw [ih fun d hd => h d (by simp [hd])]
      rfl

theorem wsBreak_eq_none {s : Str} (h : ∀ c ∈ s, jsWs c = false) :
    wsBreak s = none := by
  unfold wsBreak
  rw [List.findIdx?_eq_none_iff]
  exact h

theorem contains_eq_false {s : Str} {c : Char} (h : ∀ d ∈ s, d ≠ c) :
    s.contains c = false := by
  rw [List.contains_eq_any_beq, List.any_eq_false]
  intro x hx
  simp only [beq_iff_eq]
  exact fun hcx => h x hx hcx.symm

theorem cleanTail_eq_self {s : Str}
    (h : ∀ c ∈ s, jsWs c = false ∧ c ≠ '.' ∧ c ≠ '!' ∧ c ≠ '?') :
    cleanTail s = s := by
  have hnl : s.contains '\n' = false := by
    refine contains_eq_false fun d hd hdn => ?_
    have := (h d hd).1
    rw [hdn] at this
    exact absurd this (by decide)
  unfold cleanTail
  rw [if_neg (by rw [hnl]; simp)]
  rw [sentenceBreak_eq_none fun d hd => (h d hd).2]
  rw [wsBreak_eq_none fun d hd => (h d hd).1]

theorem findSub_of_isPrefixOf {pat s : Str} (hne : s ≠ [])
    (hp : pat.isPrefixOf s = true) : findSub pat s = some 0 := by
  cases s with
  | nil => exact absurd rfl hne
  | cons c rest =>
    unfold findSub
    rw [if_pos hp]

theorem findSub_single {c : Char} (Y : Str) :
    ∀ (X : Str), (∀ d ∈ X, d ≠ c) →
      findSub (c :: []) (X ++ c :: Y) = some X.length := by
  intro X
  induction X with
  | nil =>
    intro _
    rw [List.nil_append]
    unfold findSub
    have hp : (c :: []).isPrefixOf (c :: Y) = true :=
      List.isPrefixOf_iff_prefix.mpr ⟨Y, rfl⟩
    rw [if_pos hp]
    rfl
  | cons d X ih =>
    intro h
    rw [List.cons_append]
    unfold findSub
    have hnp : ((c :: []).isPrefixOf (d :: (X ++ c :: Y))) = false := by
      rw [Bool.eq_false_iff]
      intro hpre
      rcases List.isPrefixOf_iff_prefix.mp hpre with ⟨t, ht⟩
      rw [List.cons_append, List.nil_append] at ht
      injection ht with h1 _
      exact h d (by simp) h1.symm
    rw [if_neg (by simp [hnp])]
    rw [ih fun d' hd' => h d' (by simp [hd'])]
    rfl

theorem stripReadme_nil : stripReadme [] = [] := by
  unfold stripReadme
  rfl

/-- One replacement step of the readme-stripping regex. -/
theorem stripReadme_step {s : Str} {i j : Nat}
    (hfs : findSub (("\"readme\":\"").data) s = some i)
    (hq : findSub ('"' :: []) (s.drop (i + 10)) = some j) :
    stripReadme s = s.take i ++ (("\"readme\":\"[TRUNCATED]\"").data) ++
      stripReadme (s.drop (i + 10 + j + 1)) := by
  conv_lhs => unfold stripReadme
  split
  · rename_i hnone
    rw [hfs] at hnone
    exact absurd hnone (by simp)
  · rename_i i' hsome
    rw [hfs] at hsome
    injection hsome with hii
    subst hii
    split
    · rename_i hqnone
      rw [hq] at hqnone
      exact absurd hqnone (by simp)
    · rename_i j' hqsome
      rw [hq] at hqsome
      injection hqsome with hjj
      subst hjj
      rfl

/-! ### A first-overflow request on which the executor hard-truncates -/

/-- The readme field opener. -/
def c8R : Str := ("\"readme\":\"").data

/-- A single user message holding a 16000-character readme field. -/
def c8A : Str := c8R ++ List.replicate 16000 'a' ++ ('"' :: [])

def c8Msgs : List Msg := (⟨.user, .str c8A⟩ : Msg) :: []

/-- The fitted form of `c8A` at the shrink target 2277. -/
def c8H : Str :=
  c8R ++ List.replicate 6794 'a' ++ nl2 ++ marker ++ nl2 ++
    List.replicate 2271 'a' ++ ('"' :: [])

def c8T : Str := ("\"readme\":\"[TRUNCATED]\"").data

theorem c8R_length : c8R.length = 10 := by decide

theorem c8A_length : c8A.length = 16011 := by
  unfold c8A
  rw [List.length_append, List.length_append, List.length_replicate,
    c8R_length]
  rfl

theorem c8est : estimateTokens c8A = 4003 := by
  unfold estimateTokens
  rw [c8A_length]

theorem c8A_ne_nil : c8A ≠ [] := by
  intro h
  have h2 := congrArg List.length h
  rw [c8A_length] at h2
  exact absurd h2 (by decide)

theorem c8take : jsTake 6804 c8A = c8R ++ List.replicate 6794 'a' := by
  unfold jsTake c8A
  rw [List.take_append_eq_append_take, List.take_append_eq_append_take,
    List.take_of_length_le (show c8R.length ≤ 6804 by rw [c8R_length]; omega),
    List.take_replicate, c8R_length, List.length_append,
    List.length_replicate, c8R_length]
  have h1 : (6804 - 10) ⊓ 16000 = 6794 := by norm_num
  have h2 : 6804 - (10 + 16000) = 0 := by norm_num
  rw [h1, h2, List.take_zero, List.append_nil]

theorem c8last : lastN 2272 c8A = List.replicate 2271 'a' ++ ('"' :: []) := by
  unfold lastN
  rw [c8A_length]
  have h0 : 16011 - 2272 = 13739 := by norm_num
  rw [h0]
  unfold c8A
  rw [List.drop_append_eq_append_drop, List.drop_append_eq_append_drop,
    List.drop_eq_nil_of_le
      (show c8R.length ≤ 13739 by rw [c8R_length]; omega),
    List.drop_replicate, c8R_length, List.length_append,
    List.length_replicate, c8R_length]
  have h1 : 16000 - (13739 - 10) = 2271 := by norm_num
  have h2 : 13739 - (10 + 16000) = 0 := by norm_num
  rw [h1, h2, List.drop_zero, List.nil_append]

theorem c8head_trim :
    jsTrim (c8R ++ List.replicate 6794 'a') =
      c8R ++ List.replicate 6794 'a' := by
  refine jsTrim_eq_self fun c hc => ?_
  rcases List.mem_append.mp hc with h | h
  · have hall : ∀ c ∈ c8R, jsWs c = false := by decide
    exact hall c h
  · rw [List.eq_of_mem_replicate h]
    decide

theorem c8tail_chars :
    ∀ c ∈ List.replicate 2271 'a' ++ ('"' :: []),
      jsWs c = false ∧ c ≠ '.' ∧ c ≠ '!' ∧ c ≠ '?' := by
  intro c hc
  rcases List.mem_append.mp hc with h | h
  · rw [List.eq_of_mem_replicate h]
    decide
  · rw [List.mem_singleton.mp h]
    decide

theorem c8slice : headTailSlice c8A 2277 = c8H := by
  rw [headTailSlice_of_over c8A_ne_nil (by rw [c8est]; omega)]
  have hh : 4 * htsHeadTok 2277 = 6804 := by decide
  have ht : 4 * htsTailTok 2277 = 2272 := by decide
  rw [hh, ht, c8take, c8last, c8head_trim,
    cleanTail_eq_self c8tail_chars,
    jsTrim_eq_self (fun c hc => (c8tail_chars c hc).1)]
  unfold c8H
  simp only [List.append_assoc]

theorem c8H_length : c8H.length = 9105 := by
  have hm : marker.length = 25 := by decide
  have hn : nl2.length = 2 := by decide
  unfold c8H
  rw [List.length_append, List.length_append, List.length_append,
    List.length_append, List.length_append, List.length_append,
    List.length_replicate, List.length_replicate, c8R_length, hm, hn]
  rfl

theorem c8H_est : estimateTokens c8H = 2277 := by
  unfold estimateTokens
  rw [c8H_length]

theorem c8H_ne : c8H ≠ c8A := by
  intro h
  have h2 := congrArg List.length h
  rw [c8H_length, c8A_length] at h2
  exact absurd h2 (by decide)

theorem c8H_ne_nil : c8H ≠ [] := by
  intro h
  have h2 := congrArg List.length h
  rw [c8H_length] at h2
  exact absurd h2 (by decide)

theorem c8fit : fitMessagesWithinBudget c8Msgs 4096 =
    ((⟨.user, .str c8H⟩ : Msg) :: [], true) := by
  have hord : fitOrder c8Msgs = 0 :: [] := by
    have h := fitOrder_perm_range c8Msgs
    rw [show List.range c8Msgs.length = 0 :: [] from rfl] at h
    exact List.perm_singleton.mp h
  have hclone : fitClone c8Msgs = (⟨.user, c8A⟩ : CMsg) :: [] := rfl
  have hcnts : fitCounts c8Msgs = estimateTokens c8A :: [] := rfl
  have htot : fitTotal c8Msgs = 4303 := by
    unfold fitTotal
    rw [hcnts, c8est]
    norm_num
  have htarget : targetOf 4096 4303 4003 = 2277 := by decide
  unfold fitMessagesWithinBudget
  rw [if_neg (by rw [htot]; norm_num)]
  unfold fitRun
  rw [hord, hclone, hcnts, c8est, htot, fitLoop_cons]
  rw [if_neg (by norm_num)]
  simp only [List.get?, Option.getD_some]
  rw [htarget, c8slice, if_neg c8H_ne]
  rfl

theorem c8drop10 : c8H.drop 10 = List.replicate 6794 'a' ++ nl2 ++ marker ++
    nl2 ++ List.replicate 2271 'a' ++ ('"' :: []) := by
  have h : c8H = c8R ++ (List.replicate 6794 'a' ++ nl2 ++ marker ++ nl2 ++
      List.replicate 2271 'a' ++ ('"' :: [])) := by
    unfold c8H
    simp only [List.append_assoc]
  rw [h, List.drop_append_eq_append_drop,
    List.drop_eq_nil_of_le (show c8R.length ≤ 10 by rw [c8R_length]),
    c8R_length, List.nil_append]
  rw [show 10 - 10 = 0 from rfl, List.drop_zero]

theorem c8X_chars :
    ∀ d ∈ List.replicate 6794 'a' ++ nl2 ++ marker ++ nl2 ++
      List.replicate 2271 'a', d ≠ '"' := by
  intro d hd
  have hnl : ∀ x ∈ nl2, x ≠ '"' := by decide
  have hmk : ∀ x ∈ marker, x ≠ '"' := by decide
  rcases List.mem_append.mp hd with hd | hd
  · rcases List.mem_append.mp hd with hd | hd
    · rcases List.mem_append.mp hd with hd | hd
      · rcases List.mem_append.mp hd with hd | hd
        · rw [List.eq_of_mem_replicate hd]
          decide
        · exact hnl d hd
      · exact hmk d hd
    · exact hnl d hd
  · rw [List.eq_of_mem_replicate hd]
    decide

theorem c8findQuote : findSub ('"' :: []) (c8H.drop 10) = some 9094 := by
  have hX : c8H.drop 10 = (List.replicate 6794 'a' ++ nl2 ++ marker ++ nl2 ++
      List.replicate 2271 'a') ++ '"' :: [] := by
    rw [c8drop10]
  have h := findSub_single [] _ c8X_chars
  rw [hX, h]
  have hm : marker.length = 25 := by decide
  have hn : nl2.length = 2 := by decide
  rw [List.length_append, List.length_append, List.length_append,
    List.length_append, List.length_replicate, List.length_replicate,
    hm, hn]

theorem c8strip : stripReadme c8H = c8T := by
  have hpre : (("\"readme\":\"").data).isPrefixOf c8H = true := by
    refine List.isPrefixOf_iff_prefix.mpr ?_
    refine ⟨List.replicate 6794 'a' ++ nl2 ++ marker ++ nl2 ++
      List.replicate 2271 'a' ++ ('"' :: []), ?_⟩
    show c8R ++ _ = c8H
    unfold c8H
    simp only [List.append_assoc]
  have hfs : findSub (("\"readme\":\"").data) c8H = some 0 :=
    findSub_of_isPrefixOf c8H_ne_nil hpre
  have hq : findSub ('"' :: []) (c8H.drop (0 + 10)) = some 9094 := by
    rw [show (0 : Nat) + 10 = 10 from rfl]
    exact c8findQuote
  rw [stripReadme_step hfs hq]
  have hdropall : c8H.drop (0 + 10 + 9094 + 1) = [] :=
    List.drop_eq_nil_of_le (by rw [c8H_length])
  rw [hdropall, stripReadme_nil, List.take_zero, List.nil_append,
    List.append_nil]
  rfl

/-- The second attempt of the retry loop runs on the output of the
branch-on-`trimmed` retry strategy. -/
theorem safeStreamGo_second_attempt {ρ : Type} (stringify : List Unit → Str)
    (call : Nat → List Msg → Except Err ρ) (plan : TruncPlan) (mR : Nat)
    (e : Err) (msgs : List Msg)
    (hcall : call 1 (fitMessagesWithinBudget msgs plan.maxInput).1 =
      .error e)
    (hctx : isCtxError e = true) (hmr : 1 ≤ mR) :
    (safeStreamGo stringify call plan mR (mR + 1) 1 msgs []).2.1.get? 1 =
      some (retryStrategy stringify plan.maxInput
        (fitMessagesWithinBudget msgs plan.maxInput)) := by
  unfold safeStreamGo
  rw [hcall]
  dsimp only
  rw [if_neg (by
    rw [not_or]
    constructor
    · rw [hctx]
      simp
    · omega)]
  rcases safeStreamGo_trace_cons stringify call plan mR mR 2
    (retryStrategy stringify plan.maxInput
      (fitMessagesWithinBudget msgs plan.maxInput)) ([] ++ [msgs])
    with ⟨rest, hrest⟩
  rw [hrest]
  rfl

/-- C8, counterexample: with one 16000-character readme message the
first fit already trims, so on the very first overflow the executor's
recovery is the field-level hard truncation — the second attempt's
message is the fixed 22-character placeholder, not a proportional
halve-and-refit of the fitted content. -/
theorem safeStream_strips_readme_on_first_overflow :
    (safeStreamObject (ρ := Unit) (fun _ => [])
        (fun _ _ => .error ⟨("token limit").data⟩) ⟨0, 0⟩ 2 2048
        c8Msgs).2.1.get? 1 = some ((⟨.user, .str c8T⟩ : Msg) :: []) := by
  have hplan : makeTruncationPlan ⟨0, 0⟩ 2048 = ⟨4096, 0, 2048⟩ := by decide
  unfold safeStreamObject
  rw [hplan]
  rw [safeStreamGo_second_attempt (ρ := Unit) (fun _ => [])
    (fun _ _ => .error ⟨("token limit").data⟩) ⟨4096, 0, 2048⟩ 2
    ⟨("token limit").data⟩ c8Msgs rfl (by decide) (by omega)]
  show some (retryStrategy (fun _ => []) 4096
    (fitMessagesWithinBudget c8Msgs 4096)) = _
  rw [c8fit]
  unfold retryStrategy
  rw [if_pos rfl]
  show some ((⟨.user, .str (stripReadme c8H)⟩ : Msg) :: []) = _
  rw [c8strip]

/-! ### Evaluating a fit run on a head message plus 86 identical fillers -/

theorem fit_cons_rep_eval (mx my : Msg) (cx cy : CMsg) (nx ny : Nat)
    (sx : Str) (maxT : Int)
    (hclone : fitClone (mx :: List.replicate 86 my) =
      cx :: List.replicate 86 cy)
    (hcnts : fitCounts (mx :: List.replicate 86 my) =
      nx :: List.replicate 86 ny)
    (hT : ¬ fitTotal (mx :: List.replicate 86 my) ≤ maxT)
    (hskipy : headTailSlice cy.content
      (targetOf maxT (fitTotal (mx :: List.replicate 86 my)) ny) =
      cy.content)
    (hsx : headTailSlice cx.content
      (targetOf maxT (fitTotal (mx :: List.replicate 86 my)) nx) = sx)
    (hne : sx ≠ cx.content)
    (hrest : (fitTotal (mx :: List.replicate 86 my) - (nx : Int) +
        (estimateTokens sx : Int)) ≤ maxT ∨
      headTailSlice cy.content
        (targetOf maxT (fitTotal (mx :: List.replicate 86 my) -
          (nx : Int) + (estimateTokens sx : Int)) ny) = cy.content) :
    fitMessagesWithinBudget (mx :: List.replicate 86 my) maxT =
      ((⟨cx.role, .str sx⟩ : Msg) :: List.replicate 86 (toMsg cy), true) := by
  have hlen : (mx :: List.replicate 86 my).length = 87 := by
    rw [List.length_cons, List.length_replicate]
  have h0mem : 0 ∈ fitOrder (mx :: List.replicate 86 my) :=
    mem_fitOrder.mpr (by rw [hlen]; omega)
  obtain ⟨s, t, hst⟩ := List.append_of_mem h0mem
  have hnd := fitOrder_nodup (mx :: List.replicate 86 my)
  rw [hst] at hnd
  have hparts := List.nodup_append.mp hnd
  have h0s : 0 ∉ s := fun h => hparts.2.2 h (by simp)
  have h0t : 0 ∉ t := (List.nodup_cons.mp hparts.2.1).1
  have hmem_lt : ∀ i ∈ fitOrder (mx :: List.replicate 86 my), i < 87 :=
    fun i hi => by rw [← hlen]; exact mem_fitOrder.mp hi
  have hgetcy : ∀ k, k < 86 →
      (cx :: List.replicate 86 cy).get? (k + 1) = some cy := by
    intro k hk
    rw [List.get?_cons_succ, List.get?_eq_getElem?, List.getElem?_replicate,
      if_pos hk]
  have hgetny : ∀ k, k < 86 →
      (nx :: List.replicate 86 ny).get? (k + 1) = some ny := by
    intro k hk
    rw [List.get?_cons_succ, List.get?_eq_getElem?, List.getElem?_replicate,
      if_pos hk]
  have hskA : ∀ i ∈ s, ∃ m, (cx :: List.replicate 86 cy).get? i = some m ∧
      headTailSlice m.content (targetOf maxT
        (fitTotal (mx :: List.replicate 86 my))
        (((nx :: List.replicate 86 ny).get? i).getD 0)) = m.content := by
    intro i hi
    have hi87 : i < 87 := hmem_lt i (by
      rw [hst]
      exact List.mem_append.mpr (Or.inl hi))
    have hine : i ≠ 0 := fun h => h0s (h ▸ hi)
    obtain ⟨k, rfl⟩ : ∃ k, i = k + 1 := ⟨i - 1, by omega⟩
    have hk : k < 86 := by omega
    refine ⟨cy, hgetcy k hk, ?_⟩
    rw [hgetny k hk]
    exact hskipy
  unfold fitMessagesWithinBudget
  rw [if_neg hT]
  unfold fitRun
  rw [hclone, hcnts, hst]
  rw [fitLoop_append_skip (0 :: t) hskA]
  rw [fitLoop_cons]
  rw [if_neg hT]
  simp only [List.get?, Option.getD_some]
  rw [hsx, if_neg hne]
  simp only [List.set]
  have hfin : fitLoop maxT t
      ⟨(⟨cx.role, sx⟩ : CMsg) :: List.replicate 86 cy,
       estimateTokens sx :: List.replicate 86 ny,
       fitTotal (mx :: List.replicate 86 my) - (nx : Int) +
         (estimateTokens sx : Int), true⟩ =
      ⟨(⟨cx.role, sx⟩ : CMsg) :: List.replicate 86 cy,
       estimateTokens sx :: List.replicate 86 ny,
       fitTotal (mx :: List.replicate 86 my) - (nx : Int) +
         (estimateTokens sx : Int), true⟩ := by
    rcases hrest with hle | hskip'
    · exact fitLoop_le hle t
    · have hskB : ∀ i ∈ t, ∃ m,
          ((⟨cx.role, sx⟩ : CMsg) :: List.replicate 86 cy).get? i = some m ∧
          headTailSlice m.content (targetOf maxT
            (fitTotal (mx :: List.replicate 86 my) - (nx : Int) +
              (estimateTokens sx : Int))
            (((estimateTokens sx :: List.replicate 86 ny).get? i).getD 0)) =
            m.content := by
        intro i hi
        have hi87 : i < 87 := hmem_lt i (by
          rw [hst]
          exact List.mem_append.mpr (Or.inr (by simp [hi])))
        have hine : i ≠ 0 := fun h => h0t (h ▸ hi)
        obtain ⟨k, rfl⟩ : ∃ k, i = k + 1 := ⟨i - 1, by omega⟩
        have hk : k < 86 := by omega
        refine ⟨cy, ?_, ?_⟩
        · rw [List.get?_cons_succ, List.get?_eq_getElem?,
            List.getElem?_replicate, if_pos hk]
        · rw [List.get?_cons_succ, List.get?_eq_getElem?,
            List.getElem?_replicate, if_pos hk]
          exact hskip'
      have hstep := @fitLoop_append_skip maxT
        ⟨(⟨cx.role, sx⟩ : CMsg) :: List.replicate 86 cy,
         estimateTokens sx :: List.replicate 86 ny,
         fitTotal (mx :: List.replicate 86 my) - (nx : Int) +
           (estimateTokens sx : Int), true⟩ t [] hskB
      rw [List.append_nil] at hstep
      exact hstep
  rw [hfin]
  simp only [List.map_cons, List.map_replicate]
  rfl

/-! ### A message list on which the fit is not idempotent -/

def c6A : Str := List.replicate 3424 'a'

def c6Arr : Str := ("[ARRAY_CONTENT]").data

def c6Msgs : List Msg :=
  (⟨.user, .str c6A⟩ : Msg) :: List.replicate 86 (⟨.user, .arr []⟩ : Msg)

def c6S1 : Str :=
  List.replicate 1512 'a' ++ nl2 ++ marker ++ nl2 ++ List.replicate 508 'a'

def c6M1 : List Msg :=
  (⟨.user, .str c6S1⟩ : Msg) ::
    List.replicate 86 (⟨.user, .str c6Arr⟩ : Msg)

def c6S2 : Str :=
  List.replicate 1512 'a' ++ nl2 ++ marker ++ nl2 ++ List.replicate 504 'a'

def c6M2 : List Msg :=
  (⟨.user, .str c6S2⟩ : Msg) ::
    List.replicate 86 (⟨.user, .str c6Arr⟩ : Msg)

theorem c6estA : estimateTokens c6A = 856 := by
  unfold estimateTokens c6A
  rw [List.length_replicate]

theorem c6A_ne_nil : c6A ≠ [] := by
  intro h
  have h2 := congrArg List.length h
  unfold c6A at h2
  rw [List.length_replicate] at h2
  exact absurd h2 (by decide)

theorem sum_replicate_nat (a : Nat) : ∀ n, (List.replicate n a).sum = n * a := by
  intro n
  induction n with
  | zero => simp
  | succ n ih =>
    rw [List.replicate_succ, List.sum_cons, ih]
    ring

theorem c6S1_length : c6S1.length = 2049 := by
  have hm : marker.length = 25 := by decide
  have hn : nl2.length = 2 := by decide
  unfold c6S1
  rw [List.length_append, List.length_append, List.length_append,
    List.length_append, List.length_replicate, List.length_replicate,
    hm, hn]

theorem c6estS1 : estimateTokens c6S1 = 513 := by
  unfold estimateTokens
  rw [c6S1_length]

theorem c6S1_ne : c6S1 ≠ c6A := by
  intro h
  have h2 := congrArg List.length h
  rw [c6S1_length] at h2
  unfold c6A at h2
  rw [List.length_replicate] at h2
  exact absurd h2 (by decide)

theorem c6S1_ne_nil : c6S1 ≠ [] := by
  intro h
  have h2 := congrArg List.length h
  rw [c6S1_length] at h2
  exact absurd h2 (by decide)

theorem c6S2_length : c6S2.length = 2045 := by
  have hm : marker.length = 25 := by decide
  have hn : nl2.length = 2 := by decide
  unfold c6S2
  rw [List.length_append, List.length_append, List.length_append,
    List.length_append, List.length_replicate, List.length_replicate,
    hm, hn]

theorem c6estS2 : estimateTokens c6S2 = 512 := by
  unfold estimateTokens
  rw [c6S2_length]

theorem c6S2_ne : c6S2 ≠ c6S1 := by
  intro h
  have h2 := congrArg List.length h
  rw [c6S2_length, c6S1_length] at h2
  exact absurd h2 (by decide)

theorem rep_a_chars (n : Nat) :
    ∀ c ∈ List.replicate n 'a', jsWs c = false ∧ c ≠ '.' ∧ c ≠ '!' ∧
      c ≠ '?' := by
  intro c hc
  rw [List.eq_of_mem_replicate hc]
  decide

/-- The first shrink of the oversized head message. -/
theorem c6slice1 : headTailSlice c6A 513 = c6S1 := by
  rw [headTailSlice_of_over c6A_ne_nil (by rw [c6estA]; omega)]
  have hh : 4 * htsHeadTok 513 = 1512 := by decide
  have ht : 4 * htsTailTok 513 = 508 := by decide
  rw [hh, ht]
  unfold jsTake lastN c6A
  rw [List.take_replicate, List.length_replicate, List.drop_replicate]
  have h1 : (1512 : Nat) ⊓ 3424 = 1512 := by norm_num
  have h2 : 3424 - (3424 - 508) = 508 := by norm_num
  rw [h1, h2,
    jsTrim_eq_self (fun c hc => (rep_a_chars 1512 c hc).1),
    cleanTail_eq_self (rep_a_chars 508),
    jsTrim_eq_self (fun c hc => (rep_a_chars 508 c hc).1)]
  rfl

/-- The second shrink: the fitted 2049-character message is sliced
again at target 512. -/
theorem c6slice2 : headTailSlice c6S1 512 = c6S2 := by
  rw [headTailSlice_of_over c6S1_ne_nil (by rw [c6estS1]; omega)]
  have hh : 4 * htsHeadTok 512 = 1512 := by decide
  have ht : 4 * htsTailTok 512 = 504 := by decide
  rw [hh, ht]
  have hm : marker.length = 25 := by decide
  have hn : nl2.length = 2 := by decide
  have htake : jsTake 1512 c6S1 = List.replicate 1512 'a' := by
    unfold jsTake
    have hS1 : c6S1 = List.replicate 1512 'a' ++
        (nl2 ++ (marker ++ (nl2 ++ List.replicate 508 'a'))) := by
      unfold c6S1
      simp only [List.append_assoc]
    rw [hS1, List.take_append_eq_append_take, List.take_replicate,
      List.length_replicate]
    have h1 : (1512 : Nat) ⊓ 1512 = 1512 := by norm_num
    have h2 : 1512 - 1512 = 0 := by norm_num
    rw [h1, h2, List.take_zero, List.append_nil]
  have hlast : lastN 504 c6S1 = List.replicate 504 'a' := by
    unfold lastN
    rw [c6S1_length]
    have h0 : 2049 - 504 = 1545 := by norm_num
    rw [h0]
    unfold c6S1
    rw [List.drop_append_eq_append_drop, List.drop_replicate]
    have hplen : (List.replicate 1512 'a' ++ nl2 ++ marker ++ nl2).length =
        1541 := by
      rw [List.length_append, List.length_append, List.length_append,
        List.length_replicate, hm, hn]
    rw [List.drop_eq_nil_of_le (by rw [hplen]; omega), hplen]
    have h1 : 508 - (1545 - 1541) = 504 := by norm_num
    rw [h1, List.nil_append]
  rw [htake, hlast,
    jsTrim_eq_self (fun c hc => (rep_a_chars 1512 c hc).1),
    cleanTail_eq_self (rep_a_chars 504),
    jsTrim_eq_self (fun c hc => (rep_a_chars 504 c hc).1)]
  rfl

theorem c6fit1 : fitMessagesWithinBudget c6Msgs 1155 = (c6M1, true) := by
  have hclone : fitClone c6Msgs =
      (⟨.user, c6A⟩ : CMsg) :: List.replicate 86 (⟨.user, c6Arr⟩ : CMsg) := by
    unfold c6Msgs fitClone
    rw [List.map_cons, List.map_replicate]
    rfl
  have hcnts : fitCounts c6Msgs = 856 :: List.replicate 86 0 := by
    unfold c6Msgs fitCounts
    rw [List.map_cons, List.map_replicate]
    show estimateTokens c6A :: _ = _
    rw [c6estA]
    rfl
  have htot : fitTotal c6Msgs = 1156 := by
    unfold fitTotal
    rw [hcnts, List.sum_cons, sum_replicate_nat]
    norm_num
  have ht1 : targetOf 1155 1156 0 = 512 := by decide
  have ht2 : targetOf 1155 1156 856 = 513 := by decide
  have harr : estimateTokens c6Arr ≤ 512 := by decide
  have h := fit_cons_rep_eval (⟨.user, .str c6A⟩ : Msg)
    (⟨.user, .arr []⟩ : Msg) (⟨.user, c6A⟩ : CMsg) (⟨.user, c6Arr⟩ : CMsg)
    856 0 c6S1 1155 hclone hcnts
    (by show ¬ fitTotal c6Msgs ≤ 1155; rw [htot]; norm_num)
    (by
      show headTailSlice c6Arr (targetOf 1155 (fitTotal c6Msgs) 0) = c6Arr
      rw [htot, ht1]
      exact headTailSlice_of_le harr)
    (by
      show headTailSlice c6A (targetOf 1155 (fitTotal c6Msgs) 856) = c6S1
      rw [htot, ht2]
      exact c6slice1)
    c6S1_ne
    (Or.inl (by
      show fitTotal c6Msgs - (856 : Int) + (estimateTokens c6S1 : Int) ≤ 1155
      rw [htot, c6estS1]
      norm_num))
  exact h

theorem c6fit2 : fitMessagesWithinBudget c6M1 1155 = (c6M2, true) := by
  have hclone : fitClone c6M1 =
      (⟨.user, c6S1⟩ : CMsg) ::
        List.replicate 86 (⟨.user, c6Arr⟩ : CMsg) := by
    unfold c6M1 fitClone
    rw [List.map_cons, List.map_replicate]
    rfl
  have hcnts : fitCounts c6M1 = 513 :: List.replicate 86 4 := by
    unfold c6M1 fitCounts
    rw [List.map_cons, List.map_replicate]
    show estimateTokens c6S1 :: List.replicate 86 (estimateTokens c6Arr) = _
    rw [c6estS1, show estimateTokens c6Arr = 4 from by decide]
  have htot : fitTotal c6M1 = 1157 := by
    unfold fitTotal
    rw [hcnts, List.sum_cons, sum_replicate_nat]
    norm_num
  have ht1 : targetOf 1155 1157 4 = 512 := by decide
  have ht2 : targetOf 1155 1157 513 = 512 := by decide
  have ht3 : targetOf 1155 (1157 - (513 : Int) + ((512 : Nat) : Int)) 4 =
      512 := by decide
  have harr : estimateTokens c6Arr ≤ 512 := by decide
  have h := fit_cons_rep_eval (⟨.user, .str c6S1⟩ : Msg)
    (⟨.user, .str c6Arr⟩ : Msg) (⟨.user, c6S1⟩ : CMsg)
    (⟨.user, c6Arr⟩ : CMsg) 513 4 c6S2 1155 hclone hcnts
    (by show ¬ fitTotal c6M1 ≤ 1155; rw [htot]; norm_num)
    (by
      show headTailSlice c6Arr (targetOf 1155 (fitTotal c6M1) 4) = c6Arr
      rw [htot, ht1]
      exact headTailSlice_of_le harr)
    (by
      show headTailSlice c6S1 (targetOf 1155 (fitTotal c6M1) 513) = c6S2
      rw [htot, ht2]
      exact c6slice2)
    c6S2_ne
    (Or.inr (by
      show headTailSlice c6Arr (targetOf 1155 (fitTotal c6M1 - (513 : Int) +
        (estimateTokens c6S2 : Int)) 4) = c6Arr
      rw [htot, c6estS2, ht3]
      exact headTailSlice_of_le harr))
  exact h

/-- C6, counterexample: on a message list with one oversized string and
86 empty-array messages at budget 1155, the clone step turns each array
into the `'[ARRAY_CONTENT]'` placeholder (tokens 4 instead of 0), so
re-fitting the fitted messages trims again: the second fit returns
different messages and `trimmed = true`, refuting
`fit(fit(messages)) = fit(messages)` and "no further shrink once
fitted". -/
theorem fit_not_idempotent :
    fitMessagesWithinBudget (fitMessagesWithinBudget c6Msgs 1155).1 1155 ≠
      ((fitMessagesWithinBudget c6Msgs 1155).1, false) := by
  rw [c6fit1]
  dsimp only
  rw [c6fit2]
  intro h
  injection h with h1 h2
  exact absurd h2 (by decide)

/-! ### Heap-level model of `fitMessagesWithinBudget` (src/lib/budget.ts:46-107)

JavaScript objects live on a heap and the input `messages` array holds
references.  The clone step `messages.map(m => ({...m, ...}))`
allocates fresh cells; the loop mutates only those
(`m.content = shortened`).  The heap is a list of `Msg` cells, a
message array is a list of cell addresses, and mutation is `List.set`
at the mutated address. -/

structure FitHSt where
  heap : List Msg
  counts : List Nat
  total : Int
  trimmed : Bool
deriving Repr, DecidableEq

def heapRead (heap : List Msg) (p : Nat) : Msg :=
  (heap.get? p).getD ⟨.user, .str []⟩

/-- The trimming loop over the heap: `qs` are the addresses of the
cloned cells (`cloned[i]` lives at `qs[i]`); a missing index breaks,
non-string content continues, and a shrink writes the sliced content
back into the clone's cell. -/
def fitLoopH (maxT : Int) (qs : List Nat) : List Nat → FitHSt → FitHSt
  | [], st => st
  | i :: rest, st =>
    if st.total ≤ maxT then st
    else
      match qs.get? i with
      | none => st
      | some q =>
        match st.heap.get? q with
        | none => st
        | some m =>
          match m.content with
          | .arr _ => fitLoopH maxT qs rest st
          | .str c =>
            if headTailSlice c (targetOf maxT st.total
                ((st.counts.get? i).getD 0)) = c then
              fitLoopH maxT qs rest st
            else
              fitLoopH maxT qs rest
                ⟨st.heap.set q ⟨m.role, .str (headTailSlice c (targetOf maxT
                    st.total ((st.counts.get? i).getD 0)))⟩,
                 st.counts.set i (estimateTokens (headTailSlice c (targetOf
                    maxT st.total ((st.counts.get? i).getD 0)))),
                 st.total - (((st.counts.get? i).getD 0 : Nat) : Int) +
                   (estimateTokens (headTailSlice c (targetOf maxT st.total
                    ((st.counts.get? i).getD 0))) : Int),
                 true⟩

/-- `fitMessagesWithinBudget` over the heap: reads the messages through
their addresses, allocates the clones at fresh addresses past the end
of the heap, and returns the final heap, the result array's addresses
and the `trimmed` flag.  Within budget the input array itself (`ps`) is
returned. -/
def fitMessagesWithinBudgetHeap (heap : List Msg) (ps : List Nat)
    (maxT : Int) : List Msg × List Nat × Bool :=
  if fitTotal (ps.map (heapRead heap)) ≤ maxT then (heap, ps, false)
  else
    ((fitLoopH maxT
        ((List.range (ps.map (heapRead heap)).length).map (· + heap.length))
        (fitOrder (ps.map (heapRead heap)))
        ⟨heap ++ (fitClone (ps.map (heapRead heap))).map toMsg,
         fitCounts (ps.map (heapRead heap)),
         fitTotal (ps.map (heapRead heap)), false⟩).heap,
     (List.range (ps.map (heapRead heap)).length).map (· + heap.length),
     (fitLoopH maxT
        ((List.range (ps.map (heapRead heap)).length).map (· + heap.length))
        (fitOrder (ps.map (heapRead heap)))
        ⟨heap ++ (fitClone (ps.map (heapRead heap))).map toMsg,
         fitCounts (ps.map (heapRead heap)),
         fitTotal (ps.map (heapRead heap)), false⟩).trimmed)

theorem fitLoopH_cons (maxT : Int) (qs : List Nat) (i : Nat)
    (rest : List Nat) (st : FitHSt) :
    fitLoopH maxT qs (i :: rest) st =
      if st.total ≤ maxT then st
      else
        match qs.get? i with
        | none => st
        | some q =>
          match st.heap.get? q with
          | none => st
          | some m =>
            match m.content with
            | .arr _ => fitLoopH maxT qs rest st
            | .str c =>
              if headTailSlice c (targetOf maxT st.total
                  ((st.counts.get? i).getD 0)) = c then
                fitLoopH maxT qs rest st
              else
                fitLoopH maxT qs rest
                  ⟨st.heap.set q ⟨m.role, .str (headTailSlice c (targetOf
                      maxT st.total ((st.counts.get? i).getD 0)))⟩,
                   st.counts.set i (estimateTokens (headTailSlice c
                      (targetOf maxT st.total ((st.counts.get? i).getD 0)))),
                   st.total - (((st.counts.get? i).getD 0 : Nat) : Int) +
                     (estimateTokens (headTailSlice c (targetOf maxT st.total
                      ((st.counts.get? i).getD 0))) : Int),
                   true⟩ := rfl

/-- Cells below every clone address are never written by the loop. -/
theorem fitLoopH_frame (maxT : Int) (qs : List Nat) (B : Nat)
    (hq : ∀ q ∈ qs, B ≤ q) :
    ∀ (l : List Nat) (st : FitHSt) (a : Nat), a < B →
      (fitLoopH maxT qs l st).heap.get? a = st.heap.get? a := by
  intro l
  induction l with
  | nil =>
    intro st a _
    rfl
  | cons i rest ih =>
    intro st a ha
    rw [fitLoopH_cons]
    by_cases ht : st.total ≤ maxT
    · rw [if_pos ht]
    · rw [if_neg ht]
      cases hqi : qs.get? i with
      | none => rfl
      | some q =>
        dsimp only
        cases hm : st.heap.get? q with
        | none => rfl
        | some m =>
          dsimp only
          cases hc : m.content with
          | arr parts => exact ih st a ha
          | str c =>
            dsimp only
            by_cases hfix : headTailSlice c (targetOf maxT st.total
                ((st.counts.get? i).getD 0)) = c
            · rw [if_pos hfix]
              exact ih st a ha
            · rw [if_neg hfix]
              rw [ih _ a ha]
              dsimp only
              refine List.get?_set_ne _ _ fun hne => ?_
              have hBq : B ≤ q := hq q (List.get?_mem hqi)
              omega

theorem set_append_right {α : Type} (l₁ : List α) (k : Nat) (x : α) :
    ∀ l₂ : List α, (l₂ ++ l₁).set (l₂.length + k) x = l₂ ++ l₁.set k x := by
  intro l₂
  induction l₂ with
  | nil => simp
  | cons b l₂ ih =>
    have h : (b :: l₂).length + k = (l₂.length + k) + 1 := by
      rw [List.length_cons]
      omega
    rw [h, List.cons_append]
    show b :: (l₂ ++ l₁).set (l₂.length + k) x = b :: l₂ ++ l₁.set k x
    rw [ih, List.cons_append]

theorem fitLoop_length (maxT : Int) :
    ∀ (l : List Nat) (st : FitSt),
      (fitLoop maxT l st).cloned.length = st.cloned.length := by
  intro l
  induction l with
  | nil =>
    intro st
    rfl
  | cons i rest ih =>
    intro st
    rw [fitLoop_cons]
    by_cases ht : st.total ≤ maxT
    · rw [if_pos ht]
    · rw [if_neg ht]
      cases hci : st.cloned.get? i with
      | none => rfl
      | some c =>
        dsimp only
        by_cases hfix : headTailSlice c.content (targetOf maxT st.total
            ((st.counts.get? i).getD 0)) = c.content
        · rw [if_pos hfix]
          exact ih st
        · rw [if_neg hfix]
          rw [ih _]
          dsimp only
          rw [List.length_set]

/-- The heap-level loop simulates the flat loop: the final heap is the
untouched input heap followed by the flat loop's cloned cells. -/
theorem fitLoopH_refines (maxT : Int) (heap : List Msg) (n : Nat) :
    ∀ (l : List Nat) (st : FitSt), st.cloned.length = n →
      fitLoopH maxT ((List.range n).map (· + heap.length)) l
        ⟨heap ++ st.cloned.map toMsg, st.counts, st.total, st.trimmed⟩ =
      ⟨heap ++ (fitLoop maxT l st).cloned.map toMsg,
       (fitLoop maxT l st).counts, (fitLoop maxT l st).total,
       (fitLoop maxT l st).trimmed⟩ := by
  intro l
  induction l with
  | nil =>
    intro st _
    rfl
  | cons i rest ih =>
    intro st hn
    rw [fitLoopH_cons, fitLoop_cons]
    by_cases ht : st.total ≤ maxT
    · rw [if_pos ht, if_pos ht]
    · rw [if_neg ht, if_neg ht]
      have hq : ((List.range n).map (· + heap.length)).get? i =
          if i < n then some (i + heap.length) else none := by
        rw [List.get?_map]
        by_cases hin : i < n
        · rw [if_pos hin, List.get?_eq_getElem?, List.getElem?_range hin]
          rfl
        · rw [if_neg hin, List.get?_eq_none.mpr
            (by rw [List.length_range]; omega)]
          rfl
      by_cases hin : i < n
      · rw [hq, if_pos hin]
        dsimp only
        have hcell : (heap ++ st.cloned.map toMsg).get? (i + heap.length) =
            (st.cloned.get? i).map toMsg := by
          rw [List.get?_append_right (by omega),
            show i + heap.length - heap.length = i from by omega,
            List.get?_map]
        cases hci : st.cloned.get? i with
        | none => exact absurd (List.get?_eq_none.mp hci) (by omega)
        | some c =>
          rw [hci] at hcell
          rw [hcell]
          dsimp only [toMsg, Option.map_some']
          by_cases hfix : headTailSlice c.content (targetOf maxT st.total
              ((st.counts.get? i).getD 0)) = c.content
          · rw [if_pos hfix, if_pos hfix]
            exact ih st hn
          · rw [if_neg hfix, if_neg hfix]
            have hval : (⟨c.role, .str (headTailSlice c.content (targetOf
                maxT st.total ((st.counts.get? i).getD 0)))⟩ : Msg) =
                toMsg ⟨c.role, headTailSlice c.content (targetOf maxT
                  st.total ((st.counts.get? i).getD 0))⟩ := rfl
            have hset : (heap ++ st.cloned.map toMsg).set
                (i + heap.length) (⟨c.role, .str (headTailSlice c.content
                  (targetOf maxT st.total ((st.counts.get? i).getD 0)))⟩ :
                    Msg) =
                heap ++ (st.cloned.set i ⟨c.role, headTailSlice c.content
                  (targetOf maxT st.total
                    ((st.counts.get? i).getD 0))⟩).map toMsg := by
              rw [show i + heap.length = heap.length + i from by omega,
                set_append_right, hval, ← List.map_set]
            rw [hset]
            exact ih ⟨st.cloned.set i ⟨c.role, headTailSlice c.content
              (targetOf maxT st.total ((st.counts.get? i).getD 0))⟩,
              st.counts.set i (estimateTokens (headTailSlice c.content
                (targetOf maxT st.total ((st.counts.get? i).getD 0)))),
              st.total - (((st.counts.get? i).getD 0 : Nat) : Int) +
                (estimateTokens (headTailSlice c.content (targetOf maxT
                  st.total ((st.counts.get? i).getD 0))) : Int), true⟩
              (by rw [List.length_set]; exact hn)
      · rw [hq, if_neg hin]
        have hnone : st.cloned.get? i = none :=
          List.get?_eq_none.mpr (by omega)
        rw [hnone]

/-- C10: the heap-level fit never mutates the input: every cell of the
input heap — in particular every input message object — is unchanged
after the call; when the messages are within budget the very same
address array comes back with `trimmed = false`; and the heap run
refines the functional `fitMessagesWithinBudget`: reading the returned
addresses off the final heap gives exactly its messages and the same
`trimmed` flag, so all shrinking happens on the freshly allocated
clones. -/
theorem fit_heap_no_input_mutation (heap : List Msg) (ps : List Nat)
    (maxT : Int) :
    (∀ a, a < heap.length →
      (fitMessagesWithinBudgetHeap heap ps maxT).1.get? a = heap.get? a)
    ∧ (fitTotal (ps.map (heapRead heap)) ≤ maxT →
        fitMessagesWithinBudgetHeap heap ps maxT = (heap, ps, false))
    ∧ (fitMessagesWithinBudgetHeap heap ps maxT).2.2 =
        (fitMessagesWithinBudget (ps.map (heapRead heap)) maxT).2
    ∧ (fitMessagesWithinBudgetHeap heap ps maxT).2.1.map
        (heapRead (fitMessagesWithinBudgetHeap heap ps maxT).1) =
        (fitMessagesWithinBudget (ps.map (heapRead heap)) maxT).1 := by
  by_cases h0 : fitTotal (ps.map (heapRead heap)) ≤ maxT
  · have hH : fitMessagesWithinBudgetHeap heap ps maxT = (heap, ps, false) := by
      unfold fitMessagesWithinBudgetHeap
      rw [if_pos h0]
    have hF : fitMessagesWithinBudget (ps.map (heapRead heap)) maxT =
        (ps.map (heapRead heap), false) := by
      unfold fitMessagesWithinBudget
      rw [if_pos h0]
    rw [hH, hF]
    exact ⟨fun a _ => rfl, fun _ => rfl, rfl, rfl⟩
  · have hrefine : fitLoopH maxT
        ((List.range (ps.map (heapRead heap)).length).map (· + heap.length))
        (fitOrder (ps.map (heapRead heap)))
        ⟨heap ++ (fitClone (ps.map (heapRead heap))).map toMsg,
         fitCounts (ps.map (heapRead heap)),
         fitTotal (ps.map (heapRead heap)), false⟩ =
        ⟨heap ++ (fitRun (ps.map (heapRead heap)) maxT).cloned.map toMsg,
         (fitRun (ps.map (heapRead heap)) maxT).counts,
         (fitRun (ps.map (heapRead heap)) maxT).total,
         (fitRun (ps.map (heapRead heap)) maxT).trimmed⟩ :=
      fitLoopH_refines maxT heap (ps.map (heapRead heap)).length
        (fitOrder (ps.map (heapRead heap)))
        ⟨fitClone (ps.map (heapRead heap)),
         fitCounts (ps.map (heapRead heap)),
         fitTotal (ps.map (heapRead heap)), false⟩
        (by unfold fitClone; rw [List.length_map])
    have hH : fitMessagesWithinBudgetHeap heap ps maxT =
        (heap ++ (fitRun (ps.map (heapRead heap)) maxT).cloned.map toMsg,
         (List.range (ps.map (heapRead heap)).length).map (· + heap.length),
         (fitRun (ps.map (heapRead heap)) maxT).trimmed) := by
      unfold fitMessagesWithinBudgetHeap
      rw [if_neg h0, hrefine]
    have hF : fitMessagesWithinBudget (ps.map (heapRead heap)) maxT =
        ((fitRun (ps.map (heapRead heap)) maxT).cloned.map toMsg,
         (fitRun (ps.map (heapRead heap)) maxT).trimmed) := by
      unfold fitMessagesWithinBudget
      rw [if_neg h0]
    have hlenF : (fitRun (ps.map (heapRead heap)) maxT).cloned.length =
        (ps.map (heapRead heap)).length := by
      unfold fitRun
      rw [fitLoop_length]
      unfold fitClone
      rw [List.length_map]
    refine ⟨?_, ?_, ?_, ?_⟩
    · intro a ha
      rw [hH]
      exact List.get?_append ha
    · intro h
      exact absurd h h0
    · rw [hH, hF]
    · rw [hH, hF]
      refine List.ext_get? fun k => ?_
      by_cases hk : k < (ps.map (heapRead heap)).length
      · obtain ⟨c, hc⟩ := get?_some_of_lt
          (show k < (fitRun (ps.map (heapRead heap)) maxT).cloned.length by
            rw [hlenF]; exact hk)
        have hL : ((List.range (ps.map (heapRead heap)).length).map
            (· + heap.length)).get? k = some (k + heap.length) := by
          rw [List.get?_map, List.get?_eq_getElem?, List.getElem?_range hk]
          rfl
        rw [List.get?_map, hL, List.get?_map, hc]
        have hcell : (heap ++ (fitRun (ps.map (heapRead heap))
            maxT).cloned.map toMsg).get? (k + heap.length) =
            some (toMsg c) := by
          rw [List.get?_append_right (by omega),
            show k + heap.length - heap.length = k from by omega,
            List.get?_map, hc]
          rfl
        show some (((heap ++ (fitRun (ps.map (heapRead heap))
          maxT).cloned.map toMsg).get? (k + heap.length)).getD
            (⟨.user, .str []⟩ : Msg)) = some (toMsg c)
        rw [hcell]
        rfl
      · have hn1 : (((List.range (ps.map (heapRead heap)).length).map
            (· + heap.length)).map (heapRead (heap ++ (fitRun
              (ps.map (heapRead heap)) maxT).cloned.map toMsg))).get? k =
            none := List.get?_eq_none.mpr
          (by rw [List.length_map, List.length_map, List.length_range]; omega)
        have hn2 : ((fitRun (ps.map (heapRead heap)) maxT).cloned.map
            toMsg).get? k = none := List.get?_eq_none.mpr
          (by rw [List.length_map, hlenF]; omega)
        rw [hn1, hn2]

/-- Witness for C10 at a one-cell heap within budget. -/
theorem fit_heap_no_input_mutation_witness :
    (0 < ((⟨.user, .str ('h' :: [])⟩ : Msg) :: []).length ∧
      (fitMessagesWithinBudgetHeap ((⟨.user, .str ('h' :: [])⟩ : Msg) :: [])
        (0 :: []) 1000).1.get? 0 =
        ((⟨.user, .str ('h' :: [])⟩ : Msg) :: []).get? 0)
    ∧ (fitTotal ((0 :: []).map
        (heapRead ((⟨.user, .str ('h' :: [])⟩ : Msg) :: []))) ≤ 1000 ∧
      fitMessagesWithinBudgetHeap ((⟨.user, .str ('h' :: [])⟩ : Msg) :: [])
        (0 :: []) 1000 =
        ((⟨.user, .str ('h' :: [])⟩ : Msg) :: [], 0 :: [], false)) := by
  have h := fit_heap_no_input_mutation
    ((⟨.user, .str ('h' :: [])⟩ : Msg) :: []) (0 :: []) 1000
  exact ⟨⟨by decide, h.1 0 (by decide)⟩, ⟨by decide, h.2.1 (by decide)⟩⟩

end Constellate
